import Mathlib

/-!
Verification of the brotli-polyfill codec (src/brotli.js) against its
natural-language specification.

The JavaScript source is shallowly embedded: each JS function becomes a Lean
definition of the same name, byte buffers become `List Nat` (entries < 256),
JS 32-bit integer operations are modelled explicitly, and the unbounded
`while` loops of the decoder take a fuel parameter (the decoder can loop
forever on malformed input, e.g. on commands with insertLen = copyLen = 0).
-/

namespace BrotliJs

/-! ## JavaScript numeric helpers -/

/-- JS `x << s` for a non-negative 32-bit value `x` and a signed shift `s`:
the shift count is reduced mod 32 (`ToUint32(s) & 31`), the result is the
low 32 bits. -/
def jsShl32 (x : Nat) (s : Int) : Nat :=
  (x <<< (s % 32).toNat) % 2 ^ 32

/-- JS `a & m` where `a` is an arbitrary (possibly negative) integer and `m`
a non-negative mask below 2^31: `ToInt32(a) & m`, which equals the low bits
of `a mod 2^32` masked by `m`. -/
def jsAnd (a : Int) (m : Nat) : Nat :=
  (a % 2 ^ 32).toNat &&& m

/-! ## BitReader (source lines 116-150) -/

structure BitReader where
  data : List Nat
  pos : Nat
  bitPos : Nat
  val : Nat
  bitsAvailable : Int
deriving Repr, DecidableEq

/-- The constructor: `pos`, `bitPos`, `val`, `bitsAvailable` all start at 0. -/
def BitReader.init (data : List Nat) : BitReader :=
  ⟨data, 0, 0, 0, 0⟩

/-- One structural-fuel rendering of the `fillBits` while loop; each
iteration advances `pos`, so `data.length - pos` iterations always suffice
and the fuel never cuts the loop short. -/
def fillBitsGo : Nat → BitReader → BitReader
  | 0, br => br
  | fuel + 1, br =>
    if br.bitsAvailable < 24 ∧ br.pos < br.data.length then
      fillBitsGo fuel { br with
        val := br.val ||| jsShl32 (br.data.getD br.pos 0) br.bitsAvailable,
        pos := br.pos + 1,
        bitsAvailable := br.bitsAvailable + 8 }
    else br

/-- `fillBits`: while fewer than 24 bits are buffered and bytes remain,
append the next byte at the high end of the accumulator. -/
def fillBits (br : BitReader) : BitReader :=
  fillBitsGo (br.data.length - br.pos) br

/-- `readBits(n)`: returns the low `n` bits of the refilled accumulator and
discards them.  Note the source never signals end-of-stream: when the data
is exhausted the accumulator simply runs dry (bitsAvailable goes negative)
and the low bits of whatever remains (eventually zero) are returned. -/
def readBits (br : BitReader) (n : Nat) : Nat × BitReader :=
  if n = 0 then (0, br)
  else
    let br := fillBits br
    let result := br.val &&& ((1 <<< n) - 1)
    (result, { br with val := br.val >>> n, bitsAvailable := br.bitsAvailable - n })

/-- `peekBits(n)`: same as `readBits` but without the discard (the refill is
a real state change, so the filled reader is returned alongside). -/
def peekBits (br : BitReader) (n : Nat) : Nat × BitReader :=
  let br := fillBits br
  (br.val &&& ((1 <<< n) - 1), br)

/-- `dropBits(n)`. -/
def dropBits (br : BitReader) (n : Nat) : BitReader :=
  { br with val := br.val >>> n, bitsAvailable := br.bitsAvailable - n }

/-! ## BitWriter (source lines 822-860) -/

structure BitWriter where
  output : List Nat
  bitBuffer : Nat
  bitsUsed : Nat
deriving Repr, DecidableEq

def BitWriter.init : BitWriter := ⟨[], 0, 0⟩

/-- Structural-fuel rendering of the flush loop inside `writeBits`; each
iteration removes 8 pending bits, so `bitsUsed` iterations always suffice. -/
def flushBytesGo : Nat → BitWriter → BitWriter
  | 0, bw => bw
  | fuel + 1, bw =>
    if 8 ≤ bw.bitsUsed then
      flushBytesGo fuel { output := bw.output ++ [bw.bitBuffer &&& 255],
                          bitBuffer := bw.bitBuffer >>> 8,
                          bitsUsed := bw.bitsUsed - 8 }
    else bw

/-- The flush loop inside `writeBits`: while at least 8 bits are pending,
emit the low byte. -/
def flushBytes (bw : BitWriter) : BitWriter :=
  flushBytesGo bw.bitsUsed bw

/-- `writeBits(value, numBits)`.  All call sites have `value < 2^numBits`
and `numBits ≤ 16`, so the JS 32-bit accumulator never overflows and plain
natural-number arithmetic is exact. -/
def writeBits (bw : BitWriter) (value numBits : Nat) : BitWriter :=
  flushBytes { bw with
    bitBuffer := bw.bitBuffer ||| (value <<< bw.bitsUsed),
    bitsUsed := bw.bitsUsed + numBits }

/-- `alignToByte`. -/
def alignToByte (bw : BitWriter) : BitWriter :=
  if 0 < bw.bitsUsed then
    { output := bw.output ++ [bw.bitBuffer &&& 255], bitBuffer := 0, bitsUsed := 0 }
  else bw

/-! ## Fallback encoder (source lines 1646-1690) and `brotliCompress`
(source lines 1624-1643) -/

/-- The chunk loop of `brotliCompressUncompressed`: emit each ≤65536-byte
chunk as a non-last uncompressed meta-block (raw bytes are pushed directly
onto the output array, the writer being byte-aligned at that point). -/
def compressChunksGo : Nat → BitWriter → List Nat → Nat → BitWriter
  | 0, bw, _, _ => bw
  | fuel + 1, bw, input, offset =>
    if offset < input.length then
      let remaining := input.length - offset
      let blockSize := min remaining 65536
      let bw := writeBits bw 0 1
      let bw := writeBits bw 0 2
      let bw := writeBits bw (blockSize - 1) 16
      let bw := writeBits bw 1 1
      let bw := alignToByte bw
      let bw := { bw with output := bw.output ++ (input.drop offset).take blockSize }
      compressChunksGo fuel bw input (offset + blockSize)
    else bw

def compressChunks (bw : BitWriter) (input : List Nat) (offset : Nat) : BitWriter :=
  compressChunksGo (input.length - offset) bw input offset

/-- `brotliCompressUncompressed`: WBITS = 22 header, uncompressed chunks,
final empty last meta-block.  `toUint8Array` truncates entries mod 256. -/
def brotliCompressUncompressed (input : List Nat) : List Nat :=
  let bw := BitWriter.init
  let bw := writeBits bw 1 1
  let bw := writeBits bw 5 3
  let bw := compressChunks bw input 0
  let bw := writeBits bw 1 1
  let bw := writeBits bw 1 1
  let bw := alignToByte bw
  bw.output.map (· % 256)

/-- `brotliCompress`: for the empty input a bare WBITS=22 / ISLAST=1 /
ISEMPTY=1 stream; for every other input the uncompressed fallback. -/
def brotliCompress (input : List Nat) : List Nat :=
  if input.length = 0 then
    let bw := BitWriter.init
    let bw := writeBits bw 1 1
    let bw := writeBits bw 5 3
    let bw := writeBits bw 1 1
    let bw := writeBits bw 1 1
    (alignToByte bw).output.map (· % 256)
  else
    brotliCompressUncompressed input

/-! ## Reader-state abstraction

A reader state denotes the natural number whose little-endian bits are the
not-yet-consumed bits (accumulator first, then the remaining bytes), together
with the number of bits consumed so far.  `fillBits` preserves the
denotation; `readBits n` splits off the low `n` bits. -/

def bytesVal : List Nat → Nat
  | [] => 0
  | b :: rest => b + 256 * bytesVal rest

def streamVal (br : BitReader) : Nat :=
  br.val + 2 ^ br.bitsAvailable.toNat * bytesVal (br.data.drop br.pos)

def streamLen (br : BitReader) : Int :=
  br.bitsAvailable + 8 * ((br.data.length : Int) - (br.pos : Int))

def consumedBits (br : BitReader) : Int :=
  8 * (br.pos : Int) - br.bitsAvailable

def ReaderInv (br : BitReader) : Prop :=
  0 ≤ br.bitsAvailable ∧ br.bitsAvailable ≤ 31 ∧
  br.val < 2 ^ br.bitsAvailable.toNat ∧
  br.pos ≤ br.data.length ∧
  br.bitsAvailable ≤ 8 * (br.pos : Int) ∧
  ∀ b ∈ br.data, b < 256

/-! ## Writer characterisation

`flushBytesGo` emits `bitsUsed / 8` little-endian bytes of the accumulator;
`writeBits` therefore appends the value at the current bit position.  From
this the byte-exact output of the fallback encoder is derived. -/

def bytesOfVal (v : Nat) : Nat → List Nat
  | 0 => []
  | k + 1 => v % 256 :: bytesOfVal (v / 256) k

/-! ## Explicit byte-level form of the fallback encoder output -/

/-- The three header bytes of the first meta-block (which also carry the
4-bit WBITS=22 stream header), followed by the chunk's raw bytes.
`L` is the chunk length minus one. -/
def encFirstChunk (c : List Nat) : List Nat :=
  [(11 + 128 * (c.length - 1)) % 256,
   (11 + 128 * (c.length - 1)) / 256 % 256,
   (11 + 128 * (c.length - 1)) / 65536 + 128] ++ c

/-- The three header bytes of a subsequent meta-block (the writer is
byte-aligned when it starts), followed by the chunk's raw bytes. -/
def encChunk (c : List Nat) : List Nat :=
  [8 * (c.length - 1) % 256,
   8 * (c.length - 1) / 256 % 256,
   8 * (c.length - 1) / 65536 + 8] ++ c

def encChunksGo : Nat → List Nat → List Nat
  | 0, _ => []
  | fuel + 1, x =>
    if x.length = 0 then [] else encChunk (x.take 65536) ++ encChunksGo fuel (x.drop 65536)

def encChunks (x : List Nat) : List Nat := encChunksGo x.length x

/-- The byte-exact output of `brotliCompressUncompressed` on a non-empty
input. -/
def encodeStream (x : List Nat) : List Nat :=
  encFirstChunk (x.take 65536) ++ encChunks (x.drop 65536) ++ [3]

/-! ## Bit-level view of the fallback stream -/

/-- Little-endian bit expansion: `n` bits of `v`, least significant first
(the order in which `BitWriter.writeBits` emits bits and `BitReader.readBits`
consumes them). -/
def bitsLE : Nat → Nat → List Nat
  | _, 0 => []
  | v, n + 1 => v % 2 :: bitsLE (v / 2) n

/-- The bit stream denoted by a byte sequence, each byte LSB-first. -/
def bytesBits : List Nat → List Nat
  | [] => []
  | b :: bs => bitsLE b 8 ++ bytesBits bs

/-- Zero-padding to the next byte boundary. -/
def padToByte (b : List Nat) : List Nat :=
  b ++ List.replicate ((8 - b.length % 8) % 8) 0

/-- The per-chunk meta-block header in the spec's words: ISLAST = 0,
MNIBBLES = 0 (2 bits), a 16-bit field holding `chunk_size - 1`,
ISUNCOMPRESSED = 1. -/
def specChunkHeader (len : Nat) : List Nat :=
  [0] ++ bitsLE 0 2 ++ bitsLE (len - 1) 16 ++ [1]

/-- Consecutive chunks of at most 65536 bytes. -/
def specChunksGo : Nat → List Nat → List (List Nat)
  | 0, _ => []
  | fuel + 1, x =>
    if x.length = 0 then [] else x.take 65536 :: specChunksGo fuel (x.drop 65536)

def specChunks (x : List Nat) : List (List Nat) := specChunksGo x.length x

/-- The fallback layout transcribed from the spec's words: a WBITS = 22
header (bit 1, then the 3-bit value 5, which the decoder reads back as
17 + 5), then for each chunk the header of `specChunkHeader`, zero-padding
to a byte boundary and the chunk's raw bytes, and after all chunks
ISLAST = 1, ISEMPTY = 1 and zero-padding to a byte boundary. -/
def specFallbackBits (x : List Nat) : List Nat :=
  padToByte
    (((specChunks x).foldl
        (fun acc c => padToByte (acc ++ specChunkHeader c.length) ++ bytesBits c)
        (1 :: bitsLE 5 3)) ++ [1, 1])

/-! ## Decoder tables (source lines 12-113) -/

def kCodeLengthCodeOrder : List Nat :=
  [1, 2, 3, 4, 0, 5, 17, 6, 16, 7, 8, 9, 10, 11, 12, 13, 14, 15]

def kBlockLengthPrefixCode : List (Nat × Nat) :=
  [(1, 2), (5, 2), (9, 2), (13, 2), (17, 3), (25, 3), (33, 3), (41, 3),
   (49, 4), (65, 4), (81, 4), (97, 4), (113, 5), (145, 5), (177, 5), (209, 5),
   (241, 6), (305, 6), (369, 7), (497, 8), (753, 9), (1265, 10), (2289, 11),
   (4337, 12), (8433, 13), (16625, 24)]

def kInsertLengthPrefixCode : List (Nat × Nat) :=
  [(0, 0), (1, 0), (2, 0), (3, 0), (4, 0), (5, 0), (6, 1), (8, 1),
   (10, 2), (14, 2), (18, 3), (26, 3), (34, 4), (50, 4), (66, 5), (98, 5),
   (130, 6), (194, 7), (322, 8), (578, 9), (1090, 10), (2114, 12), (6210, 14),
   (22594, 24)]

def kCopyLengthPrefixCode : List (Nat × Nat) :=
  [(2, 0), (3, 0), (4, 0), (5, 0), (6, 0), (7, 0), (8, 0), (9, 0),
   (10, 1), (12, 1), (14, 2), (18, 2), (22, 3), (30, 3), (38, 4), (54, 4),
   (70, 5), (102, 5), (134, 6), (198, 7), (326, 8), (582, 9), (1094, 10),
   (2118, 24)]

def kDistanceShortCodeIndexOffset : List Int :=
  [0, 3, 2, 1, 0, 0, 0, 0, 0, 0, 3, 3, 3, 3, 3, 3]

def kDistanceShortCodeValueOffset : List Int :=
  [0, 0, 0, 0, -1, 1, -2, 2, -3, 3, -1, 1, -2, 2, -3, 3]

def kInsertRangeLut : List Nat := [0, 0, 8, 8, 0, 16, 8, 16, 16]

def kCopyRangeLut : List Nat := [0, 8, 0, 8, 16, 0, 16, 8, 16]

/-- The 512-entry `kContextLookup` array: entries 0-255 hold `i & 0x3f`
(LSB6), entries 256-511 hold `i >> 2` (MSB6) of the low byte, modelled as a
function of the index. -/
def kContextLookup (i : Nat) : Nat :=
  if i < 256 then i &&& 0x3f
  else if i < 512 then (i - 256) >>> 2
  else 0

/-! ## Huffman decoding (source lines 153-206) -/

structure HuffEntry where
  symbol : Nat
  bits : Nat
  len : Nat
deriving Repr, DecidableEq

inductive DecodeError
  | invalidHuffmanCode
  | typeError
  | outOfFuel
deriving Repr, DecidableEq

instance {ε α : Type} [DecidableEq ε] [DecidableEq α] : DecidableEq (Except ε α) := fun a b =>
  match a, b with
  | .ok x, .ok y =>
    if h : x = y then .isTrue (by rw [h]) else .isFalse (by intro hc; cases hc; exact h rfl)
  | .error x, .error y =>
    if h : x = y then .isTrue (by rw [h]) else .isFalse (by intro hc; cases hc; exact h rfl)
  | .ok _, .error _ => .isFalse (by intro hc; cases hc)
  | .error _, .ok _ => .isFalse (by intro hc; cases hc)

/-- Fuel-based floor of log2 (the fuel `n` itself always suffices since the
argument halves every step): `log2floor n = Math.floor(Math.log2 n)` for
n ≥ 1. -/
def log2floorGo : Nat → Nat → Nat
  | 0, _ => 0
  | fuel + 1, n => if n < 2 then 0 else 1 + log2floorGo fuel (n / 2)

def log2floor (n : Nat) : Nat := log2floorGo n n

/-- `Math.ceil(Math.log2 n)` for n ≥ 1 (0 for n = 0 or 1). -/
def clog2 (n : Nat) : Nat := if n ≤ 1 then 0 else log2floor (n - 1) + 1

/-- A stable insertion sort: `e` is placed before the first element it
compares less-or-equal to.  `Array.prototype.sort` is required to be stable,
and a stable sort under a total preorder has a unique result, so this agrees
with whatever stable algorithm the engine uses. -/
def sortInsert {α : Type} (le : α → α → Bool) (e : α) : List α → List α
  | [] => [e]
  | x :: xs => if le e x then e :: x :: xs else x :: sortInsert le e xs

def stableSort {α : Type} (le : α → α → Bool) (l : List α) : List α :=
  l.foldr (sortInsert le) []

/-- The bit-reversal loop inside `buildHuffmanTable`. -/
def reverseBitsGo : Nat → Nat → Nat → Nat
  | 0, _, rc => rc
  | j + 1, c, rc => reverseBitsGo j (c >>> 1) ((rc <<< 1) ||| (c &&& 1))

def reverseBits (c len : Nat) : Nat := reverseBitsGo len c 0

/-- The `nextCode` computation: for bits = 1..maxLen,
`code = (code + blCount[bits-1]) << 1; nextCode[bits] = code`. -/
def nextCodeGo (blCount : List Nat) : Nat → Nat → Nat → List Nat → List Nat
  | 0, _, _, nc => nc
  | steps + 1, bits, code, nc =>
    let code' := (code + blCount.getD (bits - 1) 0) <<< 1
    nextCodeGo blCount steps (bits + 1) code' (nc.set bits code')

/-- One step of the table-building loop of `buildHuffmanTable`: symbol `i`
gets the next canonical code of its length (bit-reversed). -/
def huffStep (codeLengths : List Nat) (st : List Nat × List HuffEntry) (i : Nat) :
    List Nat × List HuffEntry :=
  let nc := st.1
  let acc := st.2
  let len := codeLengths.getD i 0
  if 0 < len then
    let c := nc.getD len 0
    (nc.set len (c + 1), acc ++ [⟨i, reverseBits c len, len⟩])
  else (nc, acc)

/-- `buildHuffmanTable`: canonical codes from code lengths; entries are
bit-reversed and the table is sorted by (len, bits) with a stable sort, as
`Array.prototype.sort` is stable. -/
def buildHuffmanTable (codeLengths : List Nat) (numSymbols : Nat) : List HuffEntry :=
  let maxLen := (codeLengths.take numSymbols).foldr max 0
  if maxLen = 0 then []
  else
    let blCount := (codeLengths.take numSymbols).foldl
      (fun bl len => if 0 < len then bl.set len (bl.getD len 0 + 1) else bl)
      (List.replicate (maxLen + 1) 0)
    let nextCode := nextCodeGo blCount maxLen 1 0 (List.replicate (maxLen + 1) 0)
    let table := ((List.range numSymbols).foldl (huffStep codeLengths) (nextCode, [])).2
    stableSort (fun a b => decide (a.len < b.len ∨ (a.len = b.len ∧ a.bits ≤ b.bits))) table

/-- `readHuffmanSymbol`: first matching entry of the sorted table; throws
(Invalid Huffman code) when no entry matches the lookahead. -/
def readHuffmanSymbol (br : BitReader) (table : List HuffEntry) :
    Except DecodeError (Nat × BitReader) :=
  match table with
  | [] => .ok (0, br)
  | [e] => .ok (e.symbol, br)
  | _ =>
    let br := fillBits br
    match table.find? (fun e => br.val &&& ((1 <<< e.len) - 1) == e.bits) with
    | some e => .ok (e.symbol, dropBits br e.len)
    | none => .error .invalidHuffmanCode

/-! ## Prefix-code readers (source lines 209-321) -/

/-- The symbol-reading loop of `readSimplePrefixCode`. -/
def readSymbolsGo : Nat → Nat → BitReader → List Nat → (List Nat × BitReader)
  | 0, _, br, acc => (acc, br)
  | n + 1, symbolBits, br, acc =>
    let (s, br) := readBits br symbolBits
    readSymbolsGo n symbolBits br (acc ++ [s])

/-- `readSimplePrefixCode`.  `symbolBits` is `max(1, ceil(log2 alphabet))`;
out-of-range symbol indexes are silently ignored by the `Uint8Array` store,
matching `List.set` out of range. -/
def readSimplePrefixCode (br : BitReader) (alphabetSize : Nat) : List HuffEntry × BitReader :=
  let (v, br) := readBits br 2
  let numSymbols := v + 1
  let symbolBits := max 1 (clog2 alphabetSize)
  let (symbols, br) := readSymbolsGo numSymbols symbolBits br []
  let codeLengths : List Nat := List.replicate alphabetSize 0
  if numSymbols = 1 then
    (buildHuffmanTable (codeLengths.set (symbols.getD 0 0) 1) alphabetSize, br)
  else if numSymbols = 2 then
    (buildHuffmanTable ((codeLengths.set (symbols.getD 0 0) 1).set (symbols.getD 1 0) 1)
      alphabetSize, br)
  else if numSymbols = 3 then
    (buildHuffmanTable (((codeLengths.set (symbols.getD 0 0) 1).set (symbols.getD 1 0) 2).set
      (symbols.getD 2 0) 2) alphabetSize, br)
  else
    let (treeSelect, br) := readBits br 1
    if treeSelect ≠ 0 then
      (buildHuffmanTable ((((codeLengths.set (symbols.getD 0 0) 2).set (symbols.getD 1 0) 2).set
        (symbols.getD 2 0) 2).set (symbols.getD 3 0) 2) alphabetSize, br)
    else
      (buildHuffmanTable ((((codeLengths.set (symbols.getD 0 0) 1).set (symbols.getD 1 0) 2).set
        (symbols.getD 2 0) 3).set (symbols.getD 3 0) 3) alphabetSize, br)

/-- The code-length-code loop of `readComplexPrefixCode` (`numCodes` of the
source is write-only and omitted).  `18 - skip` iterations always suffice. -/
def readClcGo : Nat → Nat → BitReader → List Nat → Int → (List Nat × BitReader)
  | 0, _, br, cl, _ => (cl, br)
  | fuel + 1, i, br, cl, space =>
    if i < 18 ∧ 0 < space then
      let idx := kCodeLengthCodeOrder.getD i 0
      let maxBits := min 4 (log2floor (space.toNat + 1))
      let (v, br) := peekBits br maxBits
      let (len, br) :=
        if v < 4 then (v, dropBits br 2)
        else if v < 12 then (4, dropBits br 4)
        else (5, dropBits br 4)
      let cl := cl.set idx len
      let space := if 0 < len then space - ((32 >>> len : Nat) : Int) else space
      readClcGo fuel (i + 1) br cl space
    else (cl, br)

/-- The code-16 run of `readComplexPrefixCode`: repeat the previous non-zero
length while the alphabet is not exhausted, charging `32768 >> prevCodeLen`
per symbol. -/
def fillRepeatGo : Nat → List Nat → Nat → Nat → Int → Nat → (List Nat × Nat × Int)
  | 0, cl, symbol, _, space, _ => (cl, symbol, space)
  | ex + 1, cl, symbol, prevCodeLen, space, alphabetSize =>
    if symbol < alphabetSize then
      fillRepeatGo ex (cl.set symbol prevCodeLen) (symbol + 1) prevCodeLen
        (space - ((32768 >>> prevCodeLen : Nat) : Int)) alphabetSize
    else (cl, symbol, space)

/-- The symbol-length loop of `readComplexPrefixCode`.  Every reachable
iteration advances `symbol` by at least one, so `alphabetSize` iterations
suffice; a decoded meta-symbol above 17 (impossible for a table over an
18-symbol alphabet) would loop forever in the source and is rendered as
`outOfFuel`. -/
def readSymbolLengthsGo : Nat → BitReader → List HuffEntry → List Nat → Nat → Nat → Int →
    Nat → Except DecodeError (List Nat × BitReader)
  | 0, br, _, cl, symbol, _, space, alphabetSize =>
    if symbol < alphabetSize ∧ 0 < space then .error .outOfFuel else .ok (cl, br)
  | fuel + 1, br, tbl, cl, symbol, prevCodeLen, space, alphabetSize =>
    if symbol < alphabetSize ∧ 0 < space then
      match readHuffmanSymbol br tbl with
      | .error e => .error e
      | .ok (code, br) =>
        if code < 16 then
          let cl := cl.set symbol code
          if 0 < code then
            readSymbolLengthsGo fuel br tbl cl (symbol + 1) code
              (space - ((32768 >>> code : Nat) : Int)) alphabetSize
          else
            readSymbolLengthsGo fuel br tbl cl (symbol + 1) prevCodeLen space alphabetSize
        else if code = 16 then
          let (e, br) := readBits br 2
          let extra := e + 3
          match fillRepeatGo extra cl symbol prevCodeLen space alphabetSize with
          | (cl, symbol, space) =>
            readSymbolLengthsGo fuel br tbl cl symbol prevCodeLen space alphabetSize
        else if code = 17 then
          let (e, br) := readBits br 3
          let extra := e + 3
          readSymbolLengthsGo fuel br tbl cl (symbol + extra) prevCodeLen space alphabetSize
        else
          readSymbolLengthsGo fuel br tbl cl symbol prevCodeLen space alphabetSize
    else .ok (cl, br)

def readComplexPrefixCode (br : BitReader) (alphabetSize skip : Nat) :
    Except DecodeError (List HuffEntry × BitReader) :=
  match readClcGo (18 - skip) skip br (List.replicate 18 0) 32 with
  | (codeLengthCodeLengths, br) =>
    let codeLengthTable := buildHuffmanTable codeLengthCodeLengths 18
    match readSymbolLengthsGo alphabetSize br codeLengthTable
        (List.replicate alphabetSize 0) 0 8 32768 alphabetSize with
    | .error e => .error e
    | .ok (codeLengths, br) => .ok (buildHuffmanTable codeLengths alphabetSize, br)

def readPrefixCode (br : BitReader) (alphabetSize : Nat) :
    Except DecodeError (List HuffEntry × BitReader) :=
  let (skip, br) := readBits br 2
  if skip = 1 then .ok (readSimplePrefixCode br alphabetSize)
  else readComplexPrefixCode br alphabetSize skip

/-! ## Variable-length integers, block lengths, block switches, context maps
(source lines 662-738) -/

def readVarInt (br : BitReader) : Nat × BitReader :=
  let (flag, br) := readBits br 1
  if flag ≠ 0 then
    let (nbits, br) := readBits br 3
    if 0 < nbits then
      let (v, br) := readBits br nbits
      (v + (1 <<< nbits), br)
    else (1, br)
  else (0, br)

/-- `readBlockLength`.  An out-of-range code would destructure `undefined`
in the source (a TypeError); the code comes from a 26-symbol table so this
cannot happen. -/
def readBlockLength (br : BitReader) (table : List HuffEntry) :
    Except DecodeError (Nat × BitReader) :=
  match readHuffmanSymbol br table with
  | .error e => .error e
  | .ok (code, br) =>
    match kBlockLengthPrefixCode[code]? with
    | none => .error .typeError
    | some (base, extra) =>
      let (v, br) := readBits br extra
      .ok (base + v, br)

/-- `readBlockSwitch`: `null` tables and single-type categories return type
0 without consuming bits. -/
def readBlockSwitch (br : BitReader) (table : Option (List HuffEntry))
    (prevType numTypes : Nat) : Except DecodeError (Nat × BitReader) :=
  match table with
  | none => .ok (0, br)
  | some t =>
    if numTypes ≤ 1 then .ok (0, br)
    else
      match readHuffmanSymbol br t with
      | .error e => .error e
      | .ok (code, br) =>
        if code = 0 then .ok (prevType, br)
        else if code = 1 then .ok ((prevType + 1) % numTypes, br)
        else .ok (code - 2, br)

/-- The zero-run fill inside `readContextMap`. -/
def zeroRunGo : Nat → List Nat → Nat → Nat → (List Nat × Nat)
  | 0, cm, i, _ => (cm, i)
  | j + 1, cm, i, size =>
    if i < size then zeroRunGo j (cm.set i 0) (i + 1) size else (cm, i)

/-- The fill loop of `readContextMap`; every iteration advances `i` by at
least one, so `contextMapSize` iterations suffice.  Stores truncate mod 256
(`Uint8Array`). -/
def contextMapFillGo : Nat → BitReader → List HuffEntry → List Nat → Nat → Nat → Nat →
    Except DecodeError (List Nat × BitReader)
  | 0, br, _, cm, i, size, _ =>
    if i < size then .error .outOfFuel else .ok (cm, br)
  | fuel + 1, br, tbl, cm, i, size, maxRunLengthPfx =>
    if i < size then
      match readHuffmanSymbol br tbl with
      | .error e => .error e
      | .ok (code, br) =>
        if code = 0 then
          contextMapFillGo fuel br tbl (cm.set i 0) (i + 1) size maxRunLengthPfx
        else if code ≤ maxRunLengthPfx then
          let (e, br) := readBits br code
          let runLength := (1 <<< code) + e
          match zeroRunGo runLength cm i size with
          | (cm, i) => contextMapFillGo fuel br tbl cm i size maxRunLengthPfx
        else
          contextMapFillGo fuel br tbl (cm.set i ((code - maxRunLengthPfx) % 256)) (i + 1)
            size maxRunLengthPfx
    else .ok (cm, br)

/-- The inner down-shift loop of the inverse move-to-front transform: for
`j = idx, ..., 1`, `mtf[j] = mtf[j-1]` (out-of-range stores are ignored by
the `Uint8Array`, matching `List.set`). -/
def imtfShiftGo : Nat → List Nat → List Nat
  | 0, mtf => mtf
  | j + 1, mtf => imtfShiftGo j (mtf.set (j + 1) (mtf.getD j 0))

/-- The outer loop of the inverse move-to-front transform, iterated once per
context-map entry. -/
def inverseMtfGo : Nat → List Nat → List Nat → Nat → (List Nat × List Nat)
  | 0, cm, mtf, _ => (cm, mtf)
  | fuel + 1, cm, mtf, i =>
    let idx := cm.getD i 0
    let val := mtf.getD idx 0
    let cm := cm.set i val
    let mtf := (imtfShiftGo idx mtf).set 0 val
    inverseMtfGo fuel cm mtf (i + 1)

def readContextMap (br : BitReader) (contextMapSize numTrees : Nat) :
    Except DecodeError (List Nat × BitReader) :=
  let contextMap : List Nat := List.replicate contextMapSize 0
  if numTrees = 1 then .ok (contextMap, br)
  else
    let (useRle, br) := readBits br 1
    let (maxRunLengthPfx, br) :=
      if useRle ≠ 0 then
        let (v, br) := readBits br 4
        (v + 1, br)
      else (0, br)
    match readPrefixCode br (numTrees + maxRunLengthPfx) with
    | .error e => .error e
    | .ok (table, br) =>
      match contextMapFillGo contextMapSize br table contextMap 0 contextMapSize
          maxRunLengthPfx with
      | .error e => .error e
      | .ok (contextMap, br) =>
        let (imtf, br) := readBits br 1
        if imtf ≠ 0 then
          let mtf := (List.range numTrees).map (· % 256)
          match inverseMtfGo contextMapSize contextMap mtf 0 with
          | (contextMap, _) => .ok (contextMap, br)
        else .ok (contextMap, br)

/-! ## Insert-and-copy and distance decoding (source lines 741-815) -/

/-- `decodeInsertAndCopy`.  For `cmdCode < 128` with an insert code of 24 or
more the source destructures `undefined` (TypeError).  The distance code is
0 (reuse last) or -1 (needs explicit decode). -/
def decodeInsertAndCopy (br : BitReader) (cmdCode : Nat) :
    Except DecodeError (Nat × Nat × Int × BitReader) :=
  if cmdCode < 128 then
    let insertCode := cmdCode
    if insertCode < 6 then .ok (insertCode, 0, 0, br)
    else
      match kInsertLengthPrefixCode[insertCode - 6 + 6]? with
      | none => .error .typeError
      | some (base, extra) =>
        let (v, br) := readBits br extra
        .ok (base + v, 0, 0, br)
  else if cmdCode < 704 then
    let adjustedCmd := cmdCode - 128
    let rangeIdx := adjustedCmd >>> 6
    let insertExtra := (adjustedCmd >>> 3) &&& 7
    let copyExtra := adjustedCmd &&& 7
    let insertOffset := kInsertRangeLut.getD rangeIdx 0
    let copyOffset := kCopyRangeLut.getD rangeIdx 0
    let insertCode := insertOffset + insertExtra
    let copyCode := copyOffset + copyExtra
    let (insertLen, br) :=
      if insertCode < 6 then (insertCode, br)
      else
        let idx := min insertCode (kInsertLengthPrefixCode.length - 1)
        let (base, extra) := kInsertLengthPrefixCode.getD idx (0, 0)
        let (v, br) := readBits br extra
        (base + v, br)
    let (copyLen, br) :=
      if copyCode < 8 then (copyCode + 2, br)
      else
        let idx := min copyCode (kCopyLengthPrefixCode.length - 1)
        let (base, extra) := kCopyLengthPrefixCode.getD idx (0, 0)
        let (v, br) := readBits br extra
        (base + v, br)
    let distanceCode : Int := if rangeIdx < 2 then 0 else -1
    .ok (insertLen, copyLen, distanceCode, br)
  else
    .ok (0, 0, 0, br)

def decodeDistance (br : BitReader) (distSymbol ndirect npfx : Nat) : Nat × BitReader :=
  if distSymbol < 16 then (distSymbol, br)
  else if distSymbol < 16 + ndirect then (distSymbol - 15, br)
  else
    let extraBits := 1 + ((distSymbol - ndirect - 16) >>> (npfx + 1))
    let postfixMask := (1 <<< npfx) - 1
    let hcode := (distSymbol - ndirect - 16) >>> npfx
    let lcode := (distSymbol - ndirect - 16) &&& postfixMask
    let offset := ((2 + (hcode &&& 1)) <<< extraBits) - 4
    let (v, br) := readBits br extraBits
    (((offset + v) <<< npfx) + lcode + ndirect + 1, br)

/-! ## JS number values for distances

Distances live in JS number space: an `Int8Array` read at index -1 yields
`undefined`, arithmetic on it yields `NaN`, `NaN <= 0` is false, and
`ToInt32(NaN) = 0`.  `Option Int` models this (`none` = NaN/undefined). -/

def lookupInt8 (l : List Int) (i : Int) : Option Int :=
  if 0 ≤ i ∧ i < l.length then some (l.getD i.toNat 0) else none

def optAdd : Option Int → Option Int → Option Int
  | some a, some b => some (a + b)
  | _, _ => none

def optSub (a : Int) : Option Int → Option Int
  | some b => some (a - b)
  | none => none

def optLeZero : Option Int → Bool
  | some d => decide (d ≤ 0)
  | none => false

/-- JS `x & m` where `x` may be NaN (`ToInt32(NaN) = 0`). -/
def jsAndOpt (a : Option Int) (m : Nat) : Nat :=
  match a with
  | none => 0 &&& m
  | some x => jsAnd x m

/-- The initial distance ring buffer (source line 371):
`const distRingBuffer = [4, 11, 15, 16]`, with `distRingBufferIdx = 0`. -/
def distRingBufferInit : List (Option Int) := [some 4, some 11, some 15, some 16]

/-- Distance code 0 (source line 600): reuse the newest ring entry,
`distRingBuffer[(distRingBufferIdx - 1) & 3]`. -/
def resolveDistanceCodeZero (ring : List (Option Int)) (idx : Nat) : Option Int :=
  ring.getD (jsAnd ((idx : Int) - 1) 3) none

/-- The short-code offset computation of source lines 603-606, before the
non-positive check: `distRingBuffer[(idx - indexOffset[code]) & 3] +
valueOffset[code]`. -/
def rawShortDistance (ring : List (Option Int)) (idx : Nat) (distanceCode : Int) : Option Int :=
  let i := jsAndOpt
    (optSub (idx : Int) (lookupInt8 kDistanceShortCodeIndexOffset distanceCode)) 3
  optAdd (ring.getD i none) (lookupInt8 kDistanceShortCodeValueOffset distanceCode)

/-- Source lines 601-608: the short-code branch, including the silent
replacement `if (distance <= 0) distance = distRingBuffer[(idx - 1) & 3]`. -/
def resolveShortCode (ring : List (Option Int)) (idx : Nat) (distanceCode : Int) : Option Int :=
  let d := rawShortDistance ring idx distanceCode
  if optLeZero d then resolveDistanceCodeZero ring idx else d

/-! ## Main decompression (source lines 349-659)

The stream-level mutable state, the per-meta-block tables, and the
per-meta-block body state are split into three records.  The ring buffer
(`Uint8Array((1 << windowBits) - 16)`) is modelled as a total function that
is 0 on never-written indexes, exactly like a fresh `Uint8Array`; stores
truncate mod 256. -/

structure DecompSt where
  br : BitReader
  output : List Nat
  ringBuffer : Nat → Nat
  ringBufferPos : Nat
  windowSize : Nat
  distRingBuffer : List (Option Int)
  distRingBufferIdx : Nat

structure MetaBlockCtx where
  numLiteralBlockTypes : Nat
  numCommandBlockTypes : Nat
  numDistanceBlockTypes : Nat
  literalBlockTypeTable : Option (List HuffEntry)
  literalBlockLengthTable : Option (List HuffEntry)
  commandBlockTypeTable : Option (List HuffEntry)
  commandBlockLengthTable : Option (List HuffEntry)
  distanceBlockTypeTable : Option (List HuffEntry)
  distanceBlockLengthTable : Option (List HuffEntry)
  npfx : Nat
  ndirect : Nat
  contextModes : List Nat
  literalContextMap : List Nat
  distanceContextMap : List Nat
  literalTables : List (List HuffEntry)
  commandTables : List (List HuffEntry)
  distanceTables : List (List HuffEntry)
  metaBlockLen : Nat

structure BodySt where
  literalBlockType : Nat
  literalBlockLength : Nat
  commandBlockType : Nat
  commandBlockLength : Nat
  distanceBlockType : Nat
  distanceBlockLength : Nat
  metaBlockBytesWritten : Nat
  prevByte1 : Nat
  prevByte2 : Nat

/-- The three-line output step used by the uncompressed branch, the literal
branch, and the copy branch: push the byte, store it in the ring buffer, and
advance the ring position with the `& (windowSize - 1)` mask. -/
def emitByte (st : DecompSt) (byte : Nat) : DecompSt :=
  { st with
    output := st.output ++ [byte],
    ringBuffer := fun i => if i = st.ringBufferPos then byte % 256 else st.ringBuffer i,
    ringBufferPos := (st.ringBufferPos + 1) &&& (st.windowSize - 1) }

/-- The insert-literals loop of a command: at most `insertLen` iterations,
stopping early when the meta-block is filled. -/
def insertLiteralsGo : Nat → MetaBlockCtx → DecompSt → BodySt →
    Except DecodeError (DecompSt × BodySt)
  | 0, _, st, bst => .ok (st, bst)
  | n + 1, ctx, st, bst =>
    if bst.metaBlockBytesWritten < ctx.metaBlockLen then
      let step : Except DecodeError (Nat × Nat × BitReader) :=
        if bst.literalBlockLength = 0 then
          match readBlockSwitch st.br ctx.literalBlockTypeTable bst.literalBlockType
              ctx.numLiteralBlockTypes with
          | .error e => .error e
          | .ok (newType, br) =>
            match ctx.literalBlockLengthTable with
            | none => .error .typeError
            | some lt =>
              match readBlockLength br lt with
              | .error e => .error e
              | .ok (len, br) => .ok (newType, len, br)
        else .ok (bst.literalBlockType, bst.literalBlockLength, st.br)
      match step with
      | .error e => .error e
      | .ok (literalBlockType, literalBlockLength, br) =>
        let literalBlockLength := literalBlockLength - 1
        let contextMode := ctx.contextModes.getD literalBlockType 0
        let context :=
          if contextMode = 0 then bst.prevByte1 &&& 0x3f
          else if contextMode = 1 then bst.prevByte1 >>> 2
          else if contextMode = 2 then
            kContextLookup bst.prevByte1 ||| kContextLookup (256 + bst.prevByte2)
          else
            (kContextLookup (256 + bst.prevByte1) <<< 3) |||
              kContextLookup (256 + bst.prevByte2)
        match ctx.literalContextMap[literalBlockType * 64 + context]? with
        | none => .error .typeError
        | some treeIdx =>
          match ctx.literalTables[treeIdx]? with
          | none => .error .typeError
          | some tbl =>
            match readHuffmanSymbol br tbl with
            | .error e => .error e
            | .ok (literal, br) =>
              let st := emitByte { st with br := br } literal
              insertLiteralsGo n ctx st
                { bst with
                  literalBlockType := literalBlockType,
                  literalBlockLength := literalBlockLength,
                  prevByte2 := bst.prevByte1,
                  prevByte1 := literal,
                  metaBlockBytesWritten := bst.metaBlockBytesWritten + 1 }
    else .ok (st, bst)

/-- The ring-buffer copy loop of a command: at most `copyLen` iterations,
stopping early when the meta-block is filled. -/
def copyBytesGo : Nat → Nat → MetaBlockCtx → DecompSt → BodySt → (DecompSt × BodySt)
  | 0, _, _, st, bst => (st, bst)
  | n + 1, copyFrom, ctx, st, bst =>
    if bst.metaBlockBytesWritten < ctx.metaBlockLen then
      let byte := st.ringBuffer copyFrom
      let st := emitByte st byte
      copyBytesGo n ((copyFrom + 1) &&& (st.windowSize - 1)) ctx st
        { bst with
          prevByte2 := bst.prevByte1,
          prevByte1 := byte,
          metaBlockBytesWritten := bst.metaBlockBytesWritten + 1 }
    else (st, bst)

/-- One command of the meta-block body: command block switch, insert-and-copy
decode, literal insertion, distance resolution (short-code results that are
not positive are silently replaced by the newest ring distance), ring-buffer
update and copy.  The body can loop without output (insertLen = copyLen = 0),
so it is fuelled. -/
def metaBlockBodyGo : Nat → MetaBlockCtx → DecompSt → BodySt →
    Except DecodeError DecompSt
  | 0, ctx, st, bst =>
    if bst.metaBlockBytesWritten < ctx.metaBlockLen then .error .outOfFuel else .ok st
  | fuel + 1, ctx, st, bst =>
    if bst.metaBlockBytesWritten < ctx.metaBlockLen then
      let cmdStep : Except DecodeError (Nat × Nat × BitReader) :=
        if bst.commandBlockLength = 0 then
          match readBlockSwitch st.br ctx.commandBlockTypeTable bst.commandBlockType
              ctx.numCommandBlockTypes with
          | .error e => .error e
          | .ok (newType, br) =>
            match ctx.commandBlockLengthTable with
            | none => .error .typeError
            | some lt =>
              match readBlockLength br lt with
              | .error e => .error e
              | .ok (len, br) => .ok (newType, len, br)
        else .ok (bst.commandBlockType, bst.commandBlockLength, st.br)
      match cmdStep with
      | .error e => .error e
      | .ok (commandBlockType, commandBlockLength, br) =>
        let commandBlockLength := commandBlockLength - 1
        match ctx.commandTables[commandBlockType]? with
        | none => .error .typeError
        | some cmdTbl =>
          match readHuffmanSymbol br cmdTbl with
          | .error e => .error e
          | .ok (cmdCode, br) =>
            match decodeInsertAndCopy br cmdCode with
            | .error e => .error e
            | .ok (insertLen, copyLen, distanceCode, br) =>
              let bst := { bst with
                commandBlockType := commandBlockType,
                commandBlockLength := commandBlockLength }
              match insertLiteralsGo insertLen ctx { st with br := br } bst with
              | .error e => .error e
              | .ok (st, bst) =>
                if ctx.metaBlockLen ≤ bst.metaBlockBytesWritten then .ok st
                else
                  let distStep : Except DecodeError (Option Int × BodySt × BitReader) :=
                    if distanceCode = 0 then
                      .ok (resolveDistanceCodeZero st.distRingBuffer st.distRingBufferIdx,
                           bst, st.br)
                    else if distanceCode < 16 then
                      .ok (resolveShortCode st.distRingBuffer st.distRingBufferIdx distanceCode,
                           bst, st.br)
                    else
                      let dblStep : Except DecodeError (Nat × Nat × BitReader) :=
                        if bst.distanceBlockLength = 0 then
                          match readBlockSwitch st.br ctx.distanceBlockTypeTable
                              bst.distanceBlockType ctx.numDistanceBlockTypes with
                          | .error e => .error e
                          | .ok (newType, br) =>
                            match ctx.distanceBlockLengthTable with
                            | none => .error .typeError
                            | some lt =>
                              match readBlockLength br lt with
                              | .error e => .error e
                              | .ok (len, br) => .ok (newType, len, br)
                        else .ok (bst.distanceBlockType, bst.distanceBlockLength, st.br)
                      match dblStep with
                      | .error e => .error e
                      | .ok (distanceBlockType, distanceBlockLength, br) =>
                        let distanceBlockLength := distanceBlockLength - 1
                        let distContext : Int :=
                          if 4 < copyLen then 3 else (copyLen : Int) - 2
                        let mapIdx : Int := (distanceBlockType : Int) * 4 + distContext
                        let treeIdxOpt :=
                          if 0 ≤ mapIdx then ctx.distanceContextMap[mapIdx.toNat]? else none
                        match treeIdxOpt with
                        | none => .error .typeError
                        | some distTreeIdx =>
                          match ctx.distanceTables[distTreeIdx]? with
                          | none => .error .typeError
                          | some dTbl =>
                            match readHuffmanSymbol br dTbl with
                            | .error e => .error e
                            | .ok (distSymbol, br) =>
                              match decodeDistance br distSymbol ctx.ndirect ctx.npfx with
                              | (d, br) =>
                                .ok (some (d : Int),
                                     { bst with
                                       distanceBlockType := distanceBlockType,
                                       distanceBlockLength := distanceBlockLength }, br)
                  match distStep with
                  | .error e => .error e
                  | .ok (distance, bst, br) =>
                    let st := { st with br := br }
                    let st :=
                      if distanceCode ≠ 0 then
                        { st with
                          distRingBuffer :=
                            st.distRingBuffer.set (st.distRingBufferIdx &&& 3) distance,
                          distRingBufferIdx := st.distRingBufferIdx + 1 }
                      else st
                    let copyFrom :=
                      jsAndOpt (optSub (st.ringBufferPos : Int) distance) (st.windowSize - 1)
                    match copyBytesGo copyLen copyFrom ctx st bst with
                    | (st, bst) => metaBlockBodyGo fuel ctx st bst
    else .ok st

/-- Discard `skipBytes` bytes through the bit machinery (`readBits(8)` in a
loop).  The preceding realignment loop of the source
(`while (br.bitPos % 8 !== 0) br.readBits(1)`) never runs: `bitPos` is set
to 0 in the constructor and never assigned anywhere, and `readBits` does not
change it, so a nonzero `bitPos` would hang the source forever. -/
def skipBytesGo : Nat → BitReader → BitReader
  | 0, br => br
  | n + 1, br => skipBytesGo n (readBits br 8).2

/-- The raw-byte copy of an uncompressed meta-block: `metaBlockLen` direct
byte reads (`br.data[br.pos++]`), each pushed to the output and the ring
buffer.  Out-of-range reads yield `undefined`, which both the `Uint8Array`
ring store and the final `new Uint8Array(output)` turn into 0, matching
`getD _ 0`. -/
def copyUncompressedGo : Nat → DecompSt → DecompSt
  | 0, st => st
  | n + 1, st =>
    let byte := st.br.data.getD st.br.pos 0
    let st := { st with br := { st.br with pos := st.br.pos + 1 } }
    copyUncompressedGo n (emitByte st byte)

/-- Read `count` 2-bit context modes. -/
def readContextModesGo : Nat → BitReader → List Nat → (List Nat × BitReader)
  | 0, br, acc => (acc, br)
  | n + 1, br, acc =>
    let (m, br) := readBits br 2
    readContextModesGo n br (acc ++ [m])

/-- Read `count` prefix codes over the given alphabet. -/
def readTablesGo : Nat → Nat → BitReader → List (List HuffEntry) →
    Except DecodeError (List (List HuffEntry) × BitReader)
  | 0, _, br, acc => .ok (acc, br)
  | n + 1, alphabetSize, br, acc =>
    match readPrefixCode br alphabetSize with
    | .error e => .error e
    | .ok (t, br) => readTablesGo n alphabetSize br (acc ++ [t])

/-- Everything of one meta-block after the ISLAST (and possible ISEMPTY)
bits: the MNIBBLES/skip handling, the uncompressed branch, and the
compressed branch with all its tables and the body loop.  Returns the new
stream state and whether this block had ISLAST set (the loop re-checks it). -/
def decompressStep (bodyFuel : Nat) (st : DecompSt) (br : BitReader) (isLast : Bool) :
    Except DecodeError (DecompSt × Bool) :=
  let (mnibbles, br) := readBits br 2
  if mnibbles = 3 then
    let (_, br) := readBits br 1
    let (hasSkip, br) := readBits br 1
    if hasSkip ≠ 0 then
      let (sn, br) := readBits br 2
      let skipBytes := sn + 1
      if br.bitPos % 8 ≠ 0 then .error .outOfFuel
      else .ok ({ st with br := skipBytesGo skipBytes br }, isLast)
    else .ok ({ st with br := br }, isLast)
  else
    let nibbles := (4 + mnibbles) * 4
    let (v, br) := readBits br nibbles
    let metaBlockLen := v + 1
    if isLast ∧ metaBlockLen = 0 then .ok ({ st with br := br }, true)
    else
      let (isUncompressed, br) :=
        if ¬isLast then readBits br 1 else (0, br)
      if ¬isLast ∧ isUncompressed ≠ 0 then
        let bitsConsumed : Int := 8 * (br.pos : Int) - br.bitsAvailable
        let bytesConsumed := bitsConsumed.toNat / 8
        let bitsInCurrentByte := bitsConsumed.toNat % 8
        let br := { br with
          pos := bytesConsumed + (if 0 < bitsInCurrentByte then 1 else 0),
          bitsAvailable := 0,
          val := 0 }
        let st := copyUncompressedGo metaBlockLen { st with br := br }
        .ok (st, false)
      else
        let (nl, br) := readVarInt br
        let numLiteralBlockTypes := nl + 1
        let litBt : Except DecodeError
            (Option (List HuffEntry) × Option (List HuffEntry) × Nat × BitReader) :=
          if 1 < numLiteralBlockTypes then
            match readPrefixCode br (numLiteralBlockTypes + 2) with
            | .error e => .error e
            | .ok (tt, br) =>
              match readPrefixCode br 26 with
              | .error e => .error e
              | .ok (lt, br) =>
                match readBlockLength br lt with
                | .error e => .error e
                | .ok (len, br) => .ok (some tt, some lt, len, br)
          else .ok (none, none, 1 <<< 28, br)
        match litBt with
        | .error e => .error e
        | .ok (literalBlockTypeTable, literalBlockLengthTable, literalBlockLength, br) =>
          let (nc, br) := readVarInt br
          let numCommandBlockTypes := nc + 1
          let cmdBt : Except DecodeError
              (Option (List HuffEntry) × Option (List HuffEntry) × Nat × BitReader) :=
            if 1 < numCommandBlockTypes then
              match readPrefixCode br (numCommandBlockTypes + 2) with
              | .error e => .error e
              | .ok (tt, br) =>
                match readPrefixCode br 26 with
                | .error e => .error e
                | .ok (lt, br) =>
                  match readBlockLength br lt with
                  | .error e => .error e
                  | .ok (len, br) => .ok (some tt, some lt, len, br)
            else .ok (none, none, 1 <<< 28, br)
          match cmdBt with
          | .error e => .error e
          | .ok (commandBlockTypeTable, commandBlockLengthTable, commandBlockLength, br) =>
            let (nd, br) := readVarInt br
            let numDistanceBlockTypes := nd + 1
            let dstBt : Except DecodeError
                (Option (List HuffEntry) × Option (List HuffEntry) × Nat × BitReader) :=
              if 1 < numDistanceBlockTypes then
                match readPrefixCode br (numDistanceBlockTypes + 2) with
                | .error e => .error e
                | .ok (tt, br) =>
                  match readPrefixCode br 26 with
                  | .error e => .error e
                  | .ok (lt, br) =>
                    match readBlockLength br lt with
                    | .error e => .error e
                    | .ok (len, br) => .ok (some tt, some lt, len, br)
              else .ok (none, none, 1 <<< 28, br)
            match dstBt with
            | .error e => .error e
            | .ok (distanceBlockTypeTable, distanceBlockLengthTable, distanceBlockLength, br) =>
              let (npfx, br) := readBits br 2
              let (ndr, br) := readBits br 4
              let ndirect := ndr <<< npfx
              match readContextModesGo numLiteralBlockTypes br [] with
              | (contextModes, br) =>
                let (nlt, br) := readVarInt br
                let numLiteralTrees := nlt + 1
                match readContextMap br (numLiteralBlockTypes * 64) numLiteralTrees with
                | .error e => .error e
                | .ok (literalContextMap, br) =>
                  let (ndt, br) := readVarInt br
                  let numDistanceTrees := ndt + 1
                  match readContextMap br (numDistanceBlockTypes * 4) numDistanceTrees with
                  | .error e => .error e
                  | .ok (distanceContextMap, br) =>
                    match readTablesGo numLiteralTrees 256 br [] with
                    | .error e => .error e
                    | .ok (literalTables, br) =>
                      match readTablesGo numCommandBlockTypes 704 br [] with
                      | .error e => .error e
                      | .ok (commandTables, br) =>
                        let distanceAlphabetSize := 16 + ndirect + (48 <<< npfx)
                        match readTablesGo numDistanceTrees distanceAlphabetSize br [] with
                        | .error e => .error e
                        | .ok (distanceTables, br) =>
                          let ctx : MetaBlockCtx := {
                            numLiteralBlockTypes := numLiteralBlockTypes,
                            numCommandBlockTypes := numCommandBlockTypes,
                            numDistanceBlockTypes := numDistanceBlockTypes,
                            literalBlockTypeTable := literalBlockTypeTable,
                            literalBlockLengthTable := literalBlockLengthTable,
                            commandBlockTypeTable := commandBlockTypeTable,
                            commandBlockLengthTable := commandBlockLengthTable,
                            distanceBlockTypeTable := distanceBlockTypeTable,
                            distanceBlockLengthTable := distanceBlockLengthTable,
                            npfx := npfx,
                            ndirect := ndirect,
                            contextModes := contextModes,
                            literalContextMap := literalContextMap,
                            distanceContextMap := distanceContextMap,
                            literalTables := literalTables,
                            commandTables := commandTables,
                            distanceTables := distanceTables,
                            metaBlockLen := metaBlockLen }
                          let bst : BodySt := {
                            literalBlockType := 0,
                            literalBlockLength := literalBlockLength,
                            commandBlockType := 0,
                            commandBlockLength := commandBlockLength,
                            distanceBlockType := 0,
                            distanceBlockLength := distanceBlockLength,
                            metaBlockBytesWritten := 0,
                            prevByte1 := 0,
                            prevByte2 := 0 }
                          match metaBlockBodyGo bodyFuel ctx { st with br := br } bst with
                          | .error e => .error e
                          | .ok st => .ok (st, isLast)

/-- The outer `while (!isLast)` loop.  Note the ISEMPTY handling: the bit is
only peeked; it is consumed (dropped) exactly when it is 1. -/
def decompressLoopGo (bodyFuel : Nat) : Nat → DecompSt → Except DecodeError DecompSt
  | 0, _ => .error .outOfFuel
  | fuel + 1, st =>
    let (b, br) := readBits st.br 1
    let isLast := b = 1
    if isLast then
      let (p, br) := peekBits br 1
      if p = 1 then .ok { st with br := dropBits br 1 }
      else
        match decompressStep bodyFuel st br true with
        | .error e => .error e
        | .ok (st, isl) => if isl then .ok st else decompressLoopGo bodyFuel fuel st
    else
      match decompressStep bodyFuel st br false with
      | .error e => .error e
      | .ok (st, isl) => if isl then .ok st else decompressLoopGo bodyFuel fuel st

/-- `brotliDecompress`, exposing the full final state.  `fuel` bounds both
the number of meta-blocks and the number of commands inside each meta-block;
on malformed input the source loops forever, which surfaces as
`outOfFuel`. -/
def brotliDecompressState (fuel : Nat) (input : List Nat) : Except DecodeError DecompSt :=
  let br := BitReader.init input
  let (w, br) := readBits br 1
  let (windowBits, br) :=
    if w = 0 then ((16 : Nat), br)
    else
      let (wv, br) := readBits br 3
      if wv = 0 then (17, br) else (17 + wv, br)
  let windowSize := (1 <<< windowBits) - 16
  decompressLoopGo fuel fuel
    { br := br, output := [], ringBuffer := fun _ => 0, ringBufferPos := 0,
      windowSize := windowSize,
      distRingBuffer := distRingBufferInit, distRingBufferIdx := 0 }

/-- `brotliDecompress`: the decoded bytes (`new Uint8Array(output)`
truncates mod 256). -/
def brotliDecompress (fuel : Nat) (input : List Nat) : Except DecodeError (List Nat) :=
  match brotliDecompressState fuel input with
  | .error e => .error e
  | .ok st => .ok (st.output.map (· % 256))


theorem lor_shl_eq_add (k : Nat) : ∀ a v : Nat, a < 2 ^ k → a ||| (v <<< k) = a + v <<< k := by
  induction k with
  | zero =>
    intro a v h
    interval_cases a
    simp [Nat.shiftLeft_zero]
  | succ k ih =>
    intro a v h
    have ha : a = Nat.bit (a % 2 = 1) (a >>> 1) := (Nat.bit_decide_mod_two_eq_one_shiftRight_one a).symm
    have hv : v <<< (k + 1) = Nat.bit false (v <<< k) := by
      simp only [Nat.shiftLeft_eq, Nat.bit, cond_false, Nat.pow_succ]
      ring
    have h2 : a >>> 1 < 2 ^ k := by
      rw [Nat.shiftRight_one]
      omega
    rw [ha, hv, Nat.lor_bit, ih (a >>> 1) v h2]
    simp only [Nat.bit_val, Nat.shiftRight_one]
    rcases Nat.mod_two_eq_zero_or_one a with h0 | h0 <;> simp [h0] <;> omega

theorem jsShl32_small (b : Nat) (s : Int) (hb : b < 256) (h0 : 0 ≤ s) (h1 : s < 24) :
    jsShl32 b s = b <<< s.toNat := by
  have hmod : s % 32 = s := Int.emod_eq_of_lt h0 (by omega)
  have hlt : b <<< s.toNat < 2 ^ 32 := by
    rw [Nat.shiftLeft_eq]
    calc b * 2 ^ s.toNat < 256 * 2 ^ s.toNat := by
          exact (Nat.mul_lt_mul_right (Nat.pos_pow_of_pos _ (by omega))).mpr hb
      _ ≤ 256 * 2 ^ 23 := by
          apply Nat.mul_le_mul_left
          exact Nat.pow_le_pow_right (by omega) (by omega)
      _ < 2 ^ 32 := by norm_num
  rw [jsShl32, hmod, Nat.mod_eq_of_lt hlt]

theorem fillBitsGo_spec (fuel : Nat) : ∀ (br : BitReader), ReaderInv br →
    br.data.length - br.pos ≤ fuel →
    ReaderInv (fillBitsGo fuel br) ∧
    streamVal (fillBitsGo fuel br) = streamVal br ∧
    streamLen (fillBitsGo fuel br) = streamLen br ∧
    consumedBits (fillBitsGo fuel br) = consumedBits br ∧
    (fillBitsGo fuel br).data = br.data ∧
    (fillBitsGo fuel br).bitPos = br.bitPos ∧
    (24 ≤ (fillBitsGo fuel br).bitsAvailable ∨
      (fillBitsGo fuel br).pos = (fillBitsGo fuel br).data.length) := by
  induction fuel with
  | zero =>
    intro br h hfuel
    have hpos : br.pos ≤ br.data.length := h.2.2.2.1
    exact ⟨h, rfl, rfl, rfl, rfl, rfl, Or.inr (show br.pos = br.data.length by omega)⟩
  | succ fuel ih =>
    intro br h hfuel
    by_cases hcond : br.bitsAvailable < 24 ∧ br.pos < br.data.length
    · obtain ⟨hge, hle, hval, hpos, hcons, hbytes⟩ := h
      obtain ⟨hlt24, hposlt⟩ := hcond
      set byte := br.data.getD br.pos 0 with hbyte
      have hbyteval : byte < 256 := by
        apply hbytes
        rw [hbyte, List.getD_eq_getElem?_getD, List.getElem?_eq_getElem hposlt]
        exact List.getElem_mem hposlt
      have hshl : jsShl32 byte br.bitsAvailable = byte <<< br.bitsAvailable.toNat :=
        jsShl32_small byte br.bitsAvailable hbyteval hge hlt24
      have hlor : br.val ||| (byte <<< br.bitsAvailable.toNat) =
          br.val + byte <<< br.bitsAvailable.toNat :=
        lor_shl_eq_add _ _ _ hval
      have hinv' : ReaderInv { br with
          val := br.val ||| jsShl32 byte br.bitsAvailable,
          pos := br.pos + 1,
          bitsAvailable := br.bitsAvailable + 8 } := by
        unfold ReaderInv
        dsimp only
        refine ⟨by omega, by omega, ?_, by omega, by push_cast; omega, hbytes⟩
        simp only [hshl, hlor]
        have htn : (br.bitsAvailable + 8).toNat = br.bitsAvailable.toNat + 8 := by omega
        rw [htn, Nat.shiftLeft_eq, pow_add]
        have : byte * 2 ^ br.bitsAvailable.toNat ≤ 255 * 2 ^ br.bitsAvailable.toNat :=
          Nat.mul_le_mul_right _ (by omega)
        omega
      have hfuel' : br.data.length - (br.pos + 1) ≤ fuel := by omega
      obtain ⟨ih1, ih2, ih3, ih4, ih5, ih6, ih7⟩ := ih _ hinv' hfuel'
      have heq : fillBitsGo (fuel + 1) br = fillBitsGo fuel { br with
          val := br.val ||| jsShl32 byte br.bitsAvailable,
          pos := br.pos + 1,
          bitsAvailable := br.bitsAvailable + 8 } := by
        conv_lhs => rw [fillBitsGo]
        rw [if_pos ⟨hlt24, hposlt⟩]
      rw [heq]
      refine ⟨ih1, ?_, ?_, ?_, ih5, ih6, ih7⟩
      · rw [ih2]
        simp only [streamVal, hshl, hlor]
        have htn : (br.bitsAvailable + 8).toNat = br.bitsAvailable.toNat + 8 := by omega
        rw [htn]
        have hdrop : br.data.drop br.pos = br.data[br.pos] :: br.data.drop (br.pos + 1) :=
          List.drop_eq_getElem_cons hposlt
        have hbyteeq : byte = br.data[br.pos] := by
          rw [hbyte, List.getD_eq_getElem?_getD, List.getElem?_eq_getElem hposlt]
          rfl
        rw [hdrop, bytesVal, ← hbyteeq, Nat.shiftLeft_eq, pow_add]
        ring
      · rw [ih3]
        simp only [streamLen]
        push_cast
        ring
      · rw [ih4]
        simp only [consumedBits]
        push_cast
        ring
    · have heq : fillBitsGo (fuel + 1) br = br := by
        conv_lhs => rw [fillBitsGo]
        rw [if_neg hcond]
      rw [heq]
      refine ⟨h, rfl, rfl, rfl, rfl, rfl, ?_⟩
      have hpos : br.pos ≤ br.data.length := h.2.2.2.1
      have hge : 0 ≤ br.bitsAvailable := h.1
      omega

theorem fillBits_spec (br : BitReader) (h : ReaderInv br) :
    ReaderInv (fillBits br) ∧
    streamVal (fillBits br) = streamVal br ∧
    streamLen (fillBits br) = streamLen br ∧
    consumedBits (fillBits br) = consumedBits br ∧
    (fillBits br).data = br.data ∧
    (fillBits br).bitPos = br.bitPos ∧
    (24 ≤ (fillBits br).bitsAvailable ∨ (fillBits br).pos = (fillBits br).data.length) :=
  fillBitsGo_spec _ br h (le_refl _)

theorem readBits_spec (br : BitReader) (n : Nat) (h : ReaderInv br)
    (hn : n ≤ 24) (hlen : (n : Int) ≤ streamLen br) :
    (readBits br n).1 = streamVal br % 2 ^ n ∧
    ReaderInv (readBits br n).2 ∧
    streamVal (readBits br n).2 = streamVal br / 2 ^ n ∧
    streamLen (readBits br n).2 = streamLen br - n ∧
    consumedBits (readBits br n).2 = consumedBits br + n ∧
    (readBits br n).2.data = br.data ∧
    (readBits br n).2.bitPos = br.bitPos := by
  rcases Nat.eq_zero_or_pos n with h0 | h0
  · subst h0
    simp only [readBits, if_pos rfl, pow_zero, Nat.mod_one, Nat.div_one]
    exact ⟨rfl, h, rfl, by simp [streamLen], by simp [consumedBits], rfl, rfl⟩
  · obtain ⟨hFinv, hFval, hFlen, hFcons, hFdata, hFbit, hFfull⟩ := fillBits_spec br h
    set F := fillBits br with hF
    obtain ⟨hge, hle31, hvlt, hpos, hcons, hbytes⟩ := hFinv
    have hnB : (n : Int) ≤ F.bitsAvailable := by
      rcases hFfull with h24 | hend
      · omega
      · have : streamLen F = F.bitsAvailable := by
          simp only [streamLen, hend]
          ring
        omega
    set B := F.bitsAvailable.toNat with hBdef
    have hnB' : n ≤ B := by omega
    have hsplit : (2 : Nat) ^ B = 2 ^ n * 2 ^ (B - n) := by
      rw [← pow_add]
      congr 1
      omega
    have hres : F.val &&& (1 <<< n) - 1 = F.val % 2 ^ n := by
      rw [Nat.one_shiftLeft, Nat.and_pow_two_sub_one_eq_mod]
    have hmod : streamVal F % 2 ^ n = F.val % 2 ^ n := by
      simp only [streamVal, ← hBdef, hsplit, mul_assoc]
      exact Nat.add_mul_mod_self_left _ _ _
    have hdiv : streamVal F / 2 ^ n = F.val / 2 ^ n + 2 ^ (B - n) * bytesVal (F.data.drop F.pos) := by
      simp only [streamVal, ← hBdef, hsplit, mul_assoc]
      exact Nat.add_mul_div_left _ _ (Nat.pos_pow_of_pos _ (by omega))
    have hreq : readBits br n =
        (F.val &&& ((1 <<< n) - 1),
         { F with val := F.val >>> n, bitsAvailable := F.bitsAvailable - n }) := by
      rw [readBits, if_neg (by omega)]
    rw [hreq]
    have hvdiv : F.val >>> n = F.val / 2 ^ n := Nat.shiftRight_eq_div_pow _ _
    have hvlt' : F.val / 2 ^ n < 2 ^ (B - n) := by
      rw [Nat.div_lt_iff_lt_mul (Nat.pos_pow_of_pos _ (by omega)), ← pow_add]
      have heB : B - n + n = B := by omega
      rw [heB]
      exact hvlt
    have htn : (F.bitsAvailable - (n : Int)).toNat = B - n := by omega
    refine ⟨?_, ?_, ?_, ?_, ?_, ?_, ?_⟩
    · rw [← hFval, hmod]
      show F.val &&& ((1 <<< n) - 1) = F.val % 2 ^ n
      rw [Nat.one_shiftLeft, Nat.and_pow_two_sub_one_eq_mod]
    · unfold ReaderInv
      dsimp only
      exact ⟨by omega, by omega, by rw [hvdiv, htn]; exact hvlt', hpos, by omega, hbytes⟩
    · rw [← hFval, hdiv]
      simp only [streamVal]
      rw [hvdiv, htn]
    · rw [← hFlen]
      simp only [streamLen]
      ring
    · rw [← hFcons]
      simp only [consumedBits]
      ring
    · rw [← hFdata]
    · rw [← hFbit]

theorem peekBits_spec (br : BitReader) (n : Nat) (h : ReaderInv br)
    (hn : n ≤ 24) (hlen : (n : Int) ≤ streamLen br) :
    (peekBits br n).1 = streamVal br % 2 ^ n ∧
    (peekBits br n).2 = fillBits br := by
  obtain ⟨hFinv, hFval, hFlen, hFcons, hFdata, hFbit, hFfull⟩ := fillBits_spec br h
  set F := fillBits br with hF
  obtain ⟨hge, hle31, hvlt, hpos, hcons, hbytes⟩ := hFinv
  have hnB : (n : Int) ≤ F.bitsAvailable := by
    rcases hFfull with h24 | hend
    · omega
    · have : streamLen F = F.bitsAvailable := by
        simp only [streamLen, hend]
        ring
      omega
  set B := F.bitsAvailable.toNat with hBdef
  have hsplit : (2 : Nat) ^ B = 2 ^ n * 2 ^ (B - n) := by
    rw [← pow_add]
    congr 1
    omega
  have hmod : streamVal F % 2 ^ n = F.val % 2 ^ n := by
    simp only [streamVal, ← hBdef, hsplit, mul_assoc]
    exact Nat.add_mul_mod_self_left _ _ _
  constructor
  · show F.val &&& ((1 <<< n) - 1) = _
    rw [Nat.one_shiftLeft, Nat.and_pow_two_sub_one_eq_mod, ← hFval, hmod]
  · rfl

theorem dropBits_spec (br : BitReader) (n : Nat) (h : ReaderInv br)
    (hn : (n : Int) ≤ br.bitsAvailable) :
    ReaderInv (dropBits br n) ∧
    streamVal (dropBits br n) = streamVal br / 2 ^ n ∧
    streamLen (dropBits br n) = streamLen br - n ∧
    consumedBits (dropBits br n) = consumedBits br + n ∧
    (dropBits br n).data = br.data ∧
    (dropBits br n).bitPos = br.bitPos := by
  obtain ⟨hge, hle31, hvlt, hpos, hcons, hbytes⟩ := h
  set B := br.bitsAvailable.toNat with hBdef
  have hnB : n ≤ B := by omega
  have hsplit : (2 : Nat) ^ B = 2 ^ n * 2 ^ (B - n) := by
    rw [← pow_add]
    congr 1
    omega
  have hdiv : streamVal br / 2 ^ n = br.val / 2 ^ n + 2 ^ (B - n) * bytesVal (br.data.drop br.pos) := by
    simp only [streamVal, ← hBdef, hsplit, mul_assoc]
    exact Nat.add_mul_div_left _ _ (Nat.pos_pow_of_pos _ (by omega))
  have hvdiv : br.val >>> n = br.val / 2 ^ n := Nat.shiftRight_eq_div_pow _ _
  have hvlt' : br.val / 2 ^ n < 2 ^ (B - n) := by
    rw [Nat.div_lt_iff_lt_mul (Nat.pos_pow_of_pos _ (by omega)), ← pow_add]
    have heB : B - n + n = B := by omega
    rw [heB]
    exact hvlt
  have htn : (br.bitsAvailable - (n : Int)).toNat = B - n := by omega
  refine ⟨⟨by simp only [dropBits]; omega, by simp only [dropBits]; omega, ?_, hpos, ?_, hbytes⟩,
    ?_, ?_, ?_, rfl, rfl⟩
  · simp only [dropBits]
    rw [hvdiv, htn]
    exact hvlt'
  · simp only [dropBits]
    omega
  · rw [hdiv]
    simp only [streamVal, dropBits]
    rw [hvdiv, htn]
  · simp only [streamLen, dropBits]
    ring
  · simp only [consumedBits, dropBits]
    ring

theorem flushBytesGo_spec (fuel : Nat) : ∀ bw : BitWriter, bw.bitsUsed ≤ fuel →
    flushBytesGo fuel bw =
      ⟨bw.output ++ bytesOfVal bw.bitBuffer (bw.bitsUsed / 8),
       bw.bitBuffer / 256 ^ (bw.bitsUsed / 8),
       bw.bitsUsed % 8⟩ := by
  induction fuel with
  | zero =>
    intro bw hle
    obtain ⟨o, b, u⟩ := bw
    simp only at hle
    have h0 : u = 0 := by omega
    subst h0
    simp [flushBytesGo, bytesOfVal]
  | succ fuel ih =>
    intro bw hle
    by_cases h8 : 8 ≤ bw.bitsUsed
    · have heq : flushBytesGo (fuel + 1) bw =
          flushBytesGo fuel { output := bw.output ++ [bw.bitBuffer &&& 255],
                              bitBuffer := bw.bitBuffer >>> 8,
                              bitsUsed := bw.bitsUsed - 8 } := by
        conv_lhs => rw [flushBytesGo]
        rw [if_pos h8]
      rw [heq, ih _ (by simp only; omega)]
      have hand : bw.bitBuffer &&& 255 = bw.bitBuffer % 256 := by
        have h2 : (255 : Nat) = 2 ^ 8 - 1 := by norm_num
        rw [h2, Nat.and_pow_two_sub_one_eq_mod]
      have hshr : bw.bitBuffer >>> 8 = bw.bitBuffer / 256 := by
        rw [Nat.shiftRight_eq_div_pow]
      have hdiv8 : bw.bitsUsed / 8 = (bw.bitsUsed - 8) / 8 + 1 := by omega
      have hmod8 : (bw.bitsUsed - 8) % 8 = bw.bitsUsed % 8 := by omega
      simp only [hand, hshr, hdiv8, hmod8, bytesOfVal, pow_succ]
      congr 1
      · simp
      · rw [Nat.div_div_eq_div_mul, Nat.mul_comm]
    · have heq : flushBytesGo (fuel + 1) bw = bw := by
        conv_lhs => rw [flushBytesGo]
        rw [if_neg h8]
      have hd : bw.bitsUsed / 8 = 0 := by omega
      have hm : bw.bitsUsed % 8 = bw.bitsUsed := by omega
      rw [heq, hd, hm]
      simp [bytesOfVal]

theorem writeBits_spec (bw : BitWriter) (v n : Nat)
    (hbuf : bw.bitBuffer < 2 ^ bw.bitsUsed) :
    writeBits bw v n =
      ⟨bw.output ++ bytesOfVal (bw.bitBuffer + v * 2 ^ bw.bitsUsed) ((bw.bitsUsed + n) / 8),
       (bw.bitBuffer + v * 2 ^ bw.bitsUsed) / 256 ^ ((bw.bitsUsed + n) / 8),
       (bw.bitsUsed + n) % 8⟩ := by
  have hlor : bw.bitBuffer ||| (v <<< bw.bitsUsed) = bw.bitBuffer + v * 2 ^ bw.bitsUsed := by
    rw [lor_shl_eq_add _ _ _ hbuf, Nat.shiftLeft_eq]
  rw [writeBits, flushBytes]
  have := flushBytesGo_spec (bw.bitsUsed + n)
    { bw with bitBuffer := bw.bitBuffer ||| (v <<< bw.bitsUsed), bitsUsed := bw.bitsUsed + n }
    (by simp only; omega)
  simp only at this
  rw [this, hlor]

theorem encChunksGo_fuel (f₁ : Nat) : ∀ (f₂ : Nat) (x : List Nat),
    x.length ≤ f₁ → x.length ≤ f₂ → encChunksGo f₁ x = encChunksGo f₂ x := by
  induction f₁ with
  | zero =>
    intro f₂ x h1 _
    have hx : x.length = 0 := by omega
    cases f₂ with
    | zero => rfl
    | succ f₂ => simp [encChunksGo, hx]
  | succ f₁ ih =>
    intro f₂ x h1 h2
    cases f₂ with
    | zero =>
      have hx : x.length = 0 := by omega
      simp [encChunksGo, hx]
    | succ f₂ =>
      simp only [encChunksGo]
      by_cases hx : x.length = 0
      · simp [hx]
      · simp only [hx, if_false]
        have hdl : (x.drop 65536).length = x.length - 65536 := by
          simp [List.length_drop]
        rw [ih f₂ (x.drop 65536) (by omega) (by omega)]

theorem encChunks_nil : encChunks [] = [] := rfl

theorem encChunks_cons (x : List Nat) (hx : x ≠ []) :
    encChunks x = encChunk (x.take 65536) ++ encChunks (x.drop 65536) := by
  have hlen : x.length ≠ 0 := by simpa using hx
  obtain ⟨n, hn⟩ : ∃ n, x.length = n + 1 := ⟨x.length - 1, by omega⟩
  unfold encChunks
  rw [hn]
  simp only [encChunksGo, hlen, if_false]
  have hdl : (x.drop 65536).length = x.length - 65536 := by
    simp [List.length_drop]
  rw [encChunksGo_fuel n ((x.drop 65536).length) (x.drop 65536) (by omega) (le_refl _)]

theorem alignToByte_push (o : List Nat) (b u : Nat) (hu : 0 < u) (hb : b < 256) :
    alignToByte ⟨o, b, u⟩ = ⟨o ++ [b], 0, 0⟩ := by
  rw [alignToByte, if_pos hu]
  have : b &&& 255 = b := by
    have h2 : (255 : Nat) = 2 ^ 8 - 1 := by norm_num
    rw [h2, Nat.and_pow_two_sub_one_eq_mod]
    exact Nat.mod_eq_of_lt hb
  simp only at this ⊢
  rw [this]

theorem chunkHeaderWrite_aligned (o : List Nat) (L : Nat) (hL : L < 65536) :
    alignToByte (writeBits (writeBits (writeBits (writeBits ⟨o, 0, 0⟩ 0 1) 0 2) L 16) 1 1) =
      ⟨o ++ [8 * L % 256, 8 * L / 256 % 256, 8 * L / 65536 + 8], 0, 0⟩ := by
  have w1 : writeBits ⟨o, 0, 0⟩ 0 1 = ⟨o, 0, 1⟩ := by
    rw [writeBits_spec _ _ _ (by norm_num)]
    simp [bytesOfVal]
  have w2 : writeBits ⟨o, 0, 1⟩ 0 2 = ⟨o, 0, 3⟩ := by
    rw [writeBits_spec _ _ _ (by norm_num)]
    simp [bytesOfVal]
  have w3 : writeBits ⟨o, 0, 3⟩ L 16 =
      ⟨o ++ [8 * L % 256, 8 * L / 256 % 256], 8 * L / 65536, 3⟩ := by
    rw [writeBits_spec _ _ _ (by norm_num)]
    simp only [bytesOfVal]
    norm_num
    constructor
    · constructor
      · omega
      · omega
    · omega
  have hb4 : 8 * L / 65536 < 2 ^ 3 := by omega
  have w4 : writeBits ⟨o ++ [8 * L % 256, 8 * L / 256 % 256], 8 * L / 65536, 3⟩ 1 1 =
      ⟨o ++ [8 * L % 256, 8 * L / 256 % 256], 8 * L / 65536 + 8, 4⟩ := by
    rw [writeBits_spec _ _ _ hb4]
    simp [bytesOfVal]
  rw [w1, w2, w3, w4, alignToByte_push _ _ _ (by norm_num) (by omega)]
  simp

theorem chunkHeaderWrite_first (L : Nat) (hL : L < 65536) :
    alignToByte (writeBits (writeBits (writeBits (writeBits ⟨[], 11, 4⟩ 0 1) 0 2) L 16) 1 1) =
      ⟨[(11 + 128 * L) % 256, (11 + 128 * L) / 256 % 256, (11 + 128 * L) / 65536 + 128], 0, 0⟩ := by
  have w1 : writeBits ⟨([] : List Nat), 11, 4⟩ 0 1 = ⟨[], 11, 5⟩ := by
    rw [writeBits_spec _ _ _ (by norm_num)]
    simp [bytesOfVal]
  have w2 : writeBits ⟨([] : List Nat), 11, 5⟩ 0 2 = ⟨[], 11, 7⟩ := by
    rw [writeBits_spec _ _ _ (by norm_num)]
    simp [bytesOfVal]
  have w3 : writeBits ⟨([] : List Nat), 11, 7⟩ L 16 =
      ⟨[(11 + 128 * L) % 256, (11 + 128 * L) / 256 % 256], (11 + 128 * L) / 65536, 7⟩ := by
    rw [writeBits_spec _ _ _ (by norm_num)]
    simp only [bytesOfVal]
    norm_num
    refine ⟨⟨?_, ?_⟩, ?_⟩ <;> omega
  have hb4 : (11 + 128 * L) / 65536 < 2 ^ 7 := by omega
  have w4 : writeBits ⟨[(11 + 128 * L) % 256, (11 + 128 * L) / 256 % 256],
      (11 + 128 * L) / 65536, 7⟩ 1 1 =
      ⟨[(11 + 128 * L) % 256, (11 + 128 * L) / 256 % 256, (11 + 128 * L) / 65536 + 128], 0, 0⟩ := by
    rw [writeBits_spec _ _ _ hb4]
    simp only [bytesOfVal]
    norm_num
    refine ⟨?_, ?_⟩ <;> omega
  rw [w1, w2, w3, w4, alignToByte]
  simp

theorem finalBlockWrite (o : List Nat) :
    alignToByte (writeBits (writeBits ⟨o, 0, 0⟩ 1 1) 1 1) = ⟨o ++ [3], 0, 0⟩ := by
  have w1 : writeBits ⟨o, 0, 0⟩ 1 1 = ⟨o, 1, 1⟩ := by
    rw [writeBits_spec _ _ _ (by norm_num)]
    simp [bytesOfVal]
  have w2 : writeBits ⟨o, 1, 1⟩ 1 1 = ⟨o, 3, 2⟩ := by
    rw [writeBits_spec _ _ _ (by norm_num)]
    simp [bytesOfVal]
  rw [w1, w2, alignToByte_push _ _ _ (by norm_num) (by norm_num)]

theorem take_min_eq (l : List Nat) (n : Nat) : l.take (min l.length n) = l.take n := by
  rw [List.take_eq_take]
  omega

theorem drop_min_eq (l : List Nat) (n : Nat) : l.drop (min l.length n) = l.drop n := by
  rcases le_or_lt l.length n with h | h
  · rw [min_eq_left h, List.drop_eq_nil_of_le (le_refl _), List.drop_eq_nil_of_le h]
  · rw [min_eq_right (by omega)]

theorem compressChunksGo_output (fuel : Nat) : ∀ (o input : List Nat) (offset : Nat),
    input.length - offset ≤ fuel →
    compressChunksGo fuel ⟨o, 0, 0⟩ input offset = ⟨o ++ encChunks (input.drop offset), 0, 0⟩ := by
  induction fuel with
  | zero =>
    intro o input offset h
    have hdrop : input.drop offset = [] := List.drop_eq_nil_of_le (by omega)
    simp [compressChunksGo, hdrop, encChunks_nil]
  | succ fuel ih =>
    intro o input offset h
    by_cases hlt : offset < input.length
    · have hrem : 1 ≤ input.length - offset := by omega
      set rest := input.drop offset with hrest
      have hrlen : rest.length = input.length - offset := by
        simp [hrest, List.length_drop]
      have hbs : min (input.length - offset) 65536 = min rest.length 65536 := by
        rw [hrlen]
      set blockSize := min (input.length - offset) 65536 with hbsdef
      have hbs1 : 1 ≤ blockSize := by omega
      have hbsle : blockSize ≤ 65536 := by omega
      have hL : blockSize - 1 < 65536 := by omega
      have hstep : compressChunksGo (fuel + 1) ⟨o, 0, 0⟩ input offset =
          compressChunksGo fuel
            ⟨o ++ [8 * (blockSize - 1) % 256, 8 * (blockSize - 1) / 256 % 256,
                   8 * (blockSize - 1) / 65536 + 8] ++ rest.take blockSize, 0, 0⟩
            input (offset + blockSize) := by
        conv_lhs => rw [compressChunksGo]
        rw [if_pos hlt]
        simp only
        rw [chunkHeaderWrite_aligned o (blockSize - 1) hL]
      have hcne : rest ≠ [] := by
        intro hnil
        rw [hnil] at hrlen
        simp at hrlen
        omega
      have hclen : (rest.take 65536).length = blockSize := by
        rw [List.length_take]
        omega
      have htake : rest.take blockSize = rest.take 65536 := by
        rw [show blockSize = min rest.length 65536 from by omega, take_min_eq]
      have hdrop2 : input.drop (offset + blockSize) = rest.drop 65536 := by
        have h1 : rest.drop blockSize = rest.drop 65536 := by
          rw [show blockSize = min rest.length 65536 from by omega, drop_min_eq]
        rw [← h1, hrest, List.drop_drop]
      rw [hstep, ih _ input (offset + blockSize) (by omega), hdrop2, htake,
        encChunks_cons rest hcne]
      simp only [encChunk, hclen]
      simp [List.append_assoc]
    · have hdrop : input.drop offset = [] := List.drop_eq_nil_of_le (by omega)
      have heq : compressChunksGo (fuel + 1) ⟨o, 0, 0⟩ input offset = ⟨o, 0, 0⟩ := by
        conv_lhs => rw [compressChunksGo]
        rw [if_neg hlt]
      rw [heq]
      simp [hdrop, encChunks_nil]

theorem map_mod_eq_self (l : List Nat) (h : ∀ b ∈ l, b < 256) : l.map (· % 256) = l := by
  conv_rhs => rw [← List.map_id l]
  exact List.map_congr_left fun b hb => Nat.mod_eq_of_lt (h b hb)

theorem encChunksGo_lt (fuel : Nat) : ∀ y : List Nat, (∀ b ∈ y, b < 256) →
    ∀ b ∈ encChunksGo fuel y, b < 256 := by
  induction fuel with
  | zero =>
    intro y _ b hb
    simp [encChunksGo] at hb
  | succ fuel ih =>
    intro y hy b hb
    simp only [encChunksGo] at hb
    by_cases hlen : y.length = 0
    · simp [hlen] at hb
    · rw [if_neg hlen] at hb
      rcases List.mem_append.mp hb with h1 | h2
      · simp only [encChunk, List.cons_append, List.nil_append, List.mem_cons] at h1
        have hcl : (y.take 65536).length - 1 ≤ 65535 := by
          have := List.length_take 65536 y
          omega
        rcases h1 with h | h | h | h
        · subst h
          exact Nat.mod_lt _ (by norm_num)
        · subst h
          exact Nat.mod_lt _ (by norm_num)
        · subst h
          omega
        · exact hy b (List.mem_of_mem_take h)
      · exact ih (y.drop 65536) (fun c hc => hy c (List.mem_of_mem_drop hc)) b h2

theorem encodeStream_lt (x : List Nat) (hb : ∀ b ∈ x, b < 256) :
    ∀ b ∈ encodeStream x, b < 256 := by
  intro b hbm
  simp only [encodeStream, List.append_assoc, List.mem_append] at hbm
  rcases hbm with h1 | h2 | h3
  · simp only [encFirstChunk, List.cons_append, List.nil_append, List.mem_cons] at h1
    have hcl : (x.take 65536).length - 1 ≤ 65535 := by
      have := List.length_take 65536 x
      omega
    rcases h1 with h | h | h | h
    · subst h
      exact Nat.mod_lt _ (by norm_num)
    · subst h
      exact Nat.mod_lt _ (by norm_num)
    · subst h
      omega
    · exact hb b (List.mem_of_mem_take h)
  · exact encChunksGo_lt _ _ (fun c hc => hb c (List.mem_of_mem_drop hc)) b h2
  · simp at h3
    omega

theorem compressUncompressed_eq (x : List Nat) (hne : x ≠ []) (hb : ∀ b ∈ x, b < 256) :
    brotliCompressUncompressed x = encodeStream x := by
  have hlen : 1 ≤ x.length := by
    rcases x with _ | _
    · simp at hne
    · simp
  have hdr : writeBits (writeBits BitWriter.init 1 1) 5 3 = ⟨[], 11, 4⟩ := by decide
  set blockSize := min x.length 65536 with hbsdef
  have hbs1 : 1 ≤ blockSize := by omega
  have hL : blockSize - 1 < 65536 := by omega
  have hchunks : compressChunks ⟨[], 11, 4⟩ x 0 =
      ⟨encFirstChunk (x.take 65536) ++ encChunks (x.drop 65536), 0, 0⟩ := by
    unfold compressChunks
    obtain ⟨n, hn⟩ : ∃ n, x.length - 0 = n + 1 := ⟨x.length - 1, by omega⟩
    rw [hn]
    conv_lhs => rw [compressChunksGo]
    rw [if_pos (by omega : (0 : Nat) < x.length)]
    simp only [Nat.sub_zero, List.drop_zero]
    rw [chunkHeaderWrite_first (blockSize - 1) hL]
    have htake : x.take blockSize = x.take 65536 := by
      rw [hbsdef, ← take_min_eq x 65536]
    have hout : compressChunksGo n
        ⟨[(11 + 128 * (blockSize - 1)) % 256, (11 + 128 * (blockSize - 1)) / 256 % 256,
          (11 + 128 * (blockSize - 1)) / 65536 + 128] ++ x.take blockSize, 0, 0⟩ x (0 + blockSize) =
        ⟨([(11 + 128 * (blockSize - 1)) % 256, (11 + 128 * (blockSize - 1)) / 256 % 256,
          (11 + 128 * (blockSize - 1)) / 65536 + 128] ++ x.take blockSize) ++
          encChunks (x.drop (0 + blockSize)), 0, 0⟩ :=
      compressChunksGo_output n _ x (0 + blockSize) (by omega)
    rw [hout]
    have hdrop : x.drop (0 + blockSize) = x.drop 65536 := by
      rw [Nat.zero_add, hbsdef, ← drop_min_eq x 65536]
    rw [hdrop, htake]
    have hfc : encFirstChunk (x.take 65536) =
        [(11 + 128 * (blockSize - 1)) % 256, (11 + 128 * (blockSize - 1)) / 256 % 256,
         (11 + 128 * (blockSize - 1)) / 65536 + 128] ++ x.take 65536 := by
      unfold encFirstChunk
      have : (x.take 65536).length = blockSize := by
        rw [List.length_take]
        omega
      rw [this]
    rw [hfc]
  show (alignToByte (writeBits (writeBits (compressChunks
      (writeBits (writeBits BitWriter.init 1 1) 5 3) x 0) 1 1) 1 1)).output.map (· % 256) = _
  rw [hdr, hchunks, finalBlockWrite]
  simp only
  rw [show encFirstChunk (x.take 65536) ++ encChunks (x.drop 65536) ++ [3] = encodeStream x from by
    simp [encodeStream]]
  exact map_mod_eq_self _ (encodeStream_lt x hb)

theorem encChunksGo_length (fuel : Nat) : ∀ y : List Nat, y.length ≤ fuel →
    (encChunksGo fuel y).length = y.length + 3 * ((y.length + 65535) / 65536) := by
  induction fuel with
  | zero =>
    intro y h
    have : y.length = 0 := by omega
    simp [encChunksGo, this]
  | succ fuel ih =>
    intro y h
    by_cases hlen : y.length = 0
    · simp [encChunksGo, hlen]
    · simp only [encChunksGo, hlen, if_false]
      rw [List.length_append]
      have hd : (y.drop 65536).length = y.length - 65536 := by simp
      rw [ih (y.drop 65536) (by omega), hd]
      have ht : (y.take 65536).length = min 65536 y.length := List.length_take 65536 y
      have hl1 : 1 ≤ y.length := by omega
      simp only [encChunk, List.length_append, List.length_cons, List.length_nil, ht]
      omega

theorem encodeStream_length (x : List Nat) (hne : x ≠ []) :
    (encodeStream x).length = x.length + 3 * ((x.length + 65535) / 65536) + 1 := by
  have hlen : 1 ≤ x.length := List.length_pos.mpr hne
  simp only [encodeStream, List.length_append, encFirstChunk, List.length_cons,
    List.length_take, List.length_singleton]
  unfold encChunks
  have hd : (x.drop 65536).length = x.length - 65536 := by simp
  rw [encChunksGo_fuel _ (x.drop 65536).length _ (le_refl _) (le_refl _),
    encChunksGo_length _ _ (le_refl _), hd]
  simp only [List.length_take, List.length_nil]
  omega

/-! ## Round-trip infrastructure -/

theorem bytesVal_append (a : List Nat) : ∀ b : List Nat,
    bytesVal (a ++ b) = bytesVal a + 256 ^ a.length * bytesVal b := by
  induction a with
  | nil =>
    intro b
    simp [bytesVal]
  | cons x xs ih =>
    intro b
    rw [List.cons_append, bytesVal, bytesVal, ih, List.length_cons, pow_succ]
    ring

theorem streamLen_add_consumed (br : BitReader) :
    streamLen br + consumedBits br = 8 * (br.data.length : Int) := by
  simp only [streamLen, consumedBits]
  ring

theorem copyUncompressedGo_spec : ∀ (n : Nat) (st : DecompSt),
    st.br.pos + n ≤ st.br.data.length →
    (copyUncompressedGo n st).output =
      st.output ++ (st.br.data.drop st.br.pos).take n ∧
    (copyUncompressedGo n st).br.data = st.br.data ∧
    (copyUncompressedGo n st).br.pos = st.br.pos + n ∧
    (copyUncompressedGo n st).br.bitPos = st.br.bitPos ∧
    (copyUncompressedGo n st).br.val = st.br.val ∧
    (copyUncompressedGo n st).br.bitsAvailable = st.br.bitsAvailable := by
  intro n
  induction n with
  | zero =>
    intro st _
    exact ⟨by simp [copyUncompressedGo], rfl, rfl, rfl, rfl, rfl⟩
  | succ n ih =>
    intro st hle
    have hlt : st.br.pos < st.br.data.length := by omega
    have heq : copyUncompressedGo (n + 1) st = copyUncompressedGo n
        (emitByte { st with br := { st.br with pos := st.br.pos + 1 } }
          (st.br.data.getD st.br.pos 0)) := rfl
    obtain ⟨ih1, ih2, ih3, ih4, ih5, ih6⟩ := ih
      (emitByte { st with br := { st.br with pos := st.br.pos + 1 } }
        (st.br.data.getD st.br.pos 0)) (by simp [emitByte]; omega)
    rw [heq]
    refine ⟨?_, by rw [ih2]; rfl, by rw [ih3]; simp [emitByte]; omega,
      by rw [ih4]; rfl, by rw [ih5]; rfl, by rw [ih6]; rfl⟩
    rw [ih1]
    have hgd : st.br.data.getD st.br.pos 0 = st.br.data[st.br.pos] := by
      rw [List.getD_eq_getElem?_getD, List.getElem?_eq_getElem hlt]
      rfl
    have hdp : st.br.data.drop st.br.pos =
        st.br.data[st.br.pos] :: st.br.data.drop (st.br.pos + 1) :=
      List.drop_eq_getElem_cons hlt
    rw [show (emitByte { st with br := { st.br with pos := st.br.pos + 1 } }
        (st.br.data.getD st.br.pos 0)).output =
        st.output ++ [st.br.data.getD st.br.pos 0] from rfl]
    rw [show (emitByte { st with br := { st.br with pos := st.br.pos + 1 } }
        (st.br.data.getD st.br.pos 0)).br =
        { st.br with pos := st.br.pos + 1 } from rfl]
    rw [hdp, List.take_succ_cons, hgd]
    simp

theorem clean_ReaderInv (br : BitReader) (hval : br.val = 0)
    (hba : br.bitsAvailable = 0) (hpos : br.pos ≤ br.data.length)
    (hbytes : ∀ b ∈ br.data, b < 256) : ReaderInv br := by
  unfold ReaderInv
  rw [hval, hba]
  refine ⟨by omega, by omega, by norm_num, hpos, by omega, hbytes⟩

theorem clean_streamVal (br : BitReader) (hval : br.val = 0)
    (hba : br.bitsAvailable = 0) :
    streamVal br = bytesVal (br.data.drop br.pos) := by
  rw [streamVal, hval, hba]
  norm_num

theorem clean_consumedBits (br : BitReader) (hba : br.bitsAvailable = 0) :
    consumedBits br = 8 * (br.pos : Int) := by
  rw [consumedBits, hba]
  ring


theorem last_block_step (bodyFuel fuel : Nat) (st : DecompSt)
    (hInv : ReaderInv st.br)
    (hdrop : st.br.data.drop st.br.pos = [3])
    (hv : st.br.val = 0) (hba : st.br.bitsAvailable = 0) :
    ∃ st2, decompressLoopGo bodyFuel (fuel + 1) st = .ok st2 ∧
      st2.output = st.output := by
  have hlen1 : st.br.data.length - st.br.pos = 1 := by
    have h2 := congrArg List.length hdrop
    rwa [List.length_drop, List.length_singleton] at h2
  have hpe : st.br.pos ≤ st.br.data.length := hInv.2.2.2.1
  have hSV : streamVal st.br = 3 := by
    rw [clean_streamVal st.br hv hba, hdrop]
    simp [bytesVal]
  have hSL : streamLen st.br = 8 := by
    rw [streamLen, hba]
    omega
  obtain ⟨hr1, hrInv, hrVal, hrLen, hrCons, hrD, hrB⟩ :=
    readBits_spec st.br 1 hInv (by omega) (by omega)
  rw [pow_one] at hr1 hrVal
  obtain ⟨hp1, hp2⟩ := peekBits_spec (readBits st.br 1).2 1 hrInv (by omega) (by omega)
  rw [pow_one] at hp1
  rcases hrk : readBits st.br 1 with ⟨bv, br⟩
  rw [hrk] at hr1 hrVal hrLen hrCons hrInv hp1 hp2
  simp only at hr1 hrVal hrLen hrCons hrInv hp1 hp2
  rcases hpk : peekBits br 1 with ⟨pv, pbr⟩
  rw [hpk] at hp1 hp2
  simp only at hp1 hp2
  have hbv : bv = 1 := by rw [hr1, hSV]
  have hpv : pv = 1 := by rw [hp1, hrVal, hSV]
  refine ⟨{ st with br := dropBits pbr 1 }, ?_, rfl⟩
  rw [decompressLoopGo, hrk]
  simp only [hbv, eq_self_iff_true, if_true, hpk]
  rw [if_pos hpv]

theorem uncompressed_block_step (bodyFuel fuel : Nat) (st : DecompSt)
    (c rest : List Nat) (P M : Nat)
    (hInv : ReaderInv st.br)
    (hc1 : 1 ≤ c.length) (hc2 : c.length ≤ 65536)
    (hval : streamVal st.br = 8 * (c.length - 1) + 524288 + 1048576 * M)
    (hconsA : 8 * (P : Int) - 8 < consumedBits st.br + 20)
    (hconsB : consumedBits st.br + 20 ≤ 8 * (P : Int))
    (hshape : st.br.data.drop P = c ++ rest)
    (hPle : P ≤ st.br.data.length) :
    ∃ st2, decompressLoopGo bodyFuel (fuel + 1) st =
        decompressLoopGo bodyFuel fuel st2 ∧
      st2.br.data = st.br.data ∧ st2.br.pos = P + c.length ∧
      st2.br.bitPos = st.br.bitPos ∧ st2.br.val = 0 ∧ st2.br.bitsAvailable = 0 ∧
      st2.output = st.output ++ c := by
  have hlen0 : st.br.data.length = P + c.length + rest.length := by
    have h2 := congrArg List.length hshape
    rw [List.length_drop, List.length_append] at h2
    omega
  have hC0 : 0 ≤ consumedBits st.br := by
    obtain ⟨hge, _, _, hpos, hcons8, _⟩ := hInv
    rw [consumedBits]
    omega
  have hSC := streamLen_add_consumed st.br
  have hSL0 : 20 ≤ streamLen st.br := by
    have h3 : (st.br.data.length : Int) = (P : Int) + c.length + rest.length := by
      rw [hlen0]
      push_cast
      ring
    omega
  obtain ⟨h11, h12, h13, h14, h15, h16, h17⟩ :=
    readBits_spec st.br 1 hInv (by omega) (by omega)
  rw [pow_one] at h11 h13
  rcases hrk1 : readBits st.br 1 with ⟨b1, br1⟩
  rw [hrk1] at h11 h12 h13 h14 h15 h16 h17
  simp only at h11 h12 h13 h14 h15 h16 h17
  obtain ⟨h21, h22, h23, h24, h25, h26, h27⟩ :=
    readBits_spec br1 2 h12 (by omega) (by omega)
  rw [show (2:Nat) ^ 2 = 4 from by norm_num] at h21 h23
  rcases hrk2 : readBits br1 2 with ⟨m, br2⟩
  rw [hrk2] at h21 h22 h23 h24 h25 h26 h27
  simp only at h21 h22 h23 h24 h25 h26 h27
  obtain ⟨h31, h32, h33, h34, h35, h36, h37⟩ :=
    readBits_spec br2 16 h22 (by omega) (by omega)
  rw [show (2:Nat) ^ 16 = 65536 from by norm_num] at h31 h33
  rcases hrk3 : readBits br2 16 with ⟨v, br3⟩
  rw [hrk3] at h31 h32 h33 h34 h35 h36 h37
  simp only at h31 h32 h33 h34 h35 h36 h37
  obtain ⟨h41, h42, h43, h44, h45, h46, h47⟩ :=
    readBits_spec br3 1 h32 (by omega) (by omega)
  rw [pow_one] at h41 h43
  rcases hrk4 : readBits br3 1 with ⟨u, br4⟩
  rw [hrk4] at h41 h42 h43 h44 h45 h46 h47
  simp only at h41 h42 h43 h44 h45 h46 h47
  have hb1 : b1 = 0 := by
    rw [h11, hval]
    omega
  have hsv2 : streamVal br2 = streamVal st.br / 8 := by
    rw [h23, h13, Nat.div_div_eq_div_mul]
  have hm0 : m = 0 := by
    rw [h21, h13, hval]
    omega
  have hvL : v = c.length - 1 := by
    rw [h31, hsv2, hval]
    omega
  have hu1 : u = 1 := by
    rw [h41, h33, hsv2, hval]
    rw [Nat.div_div_eq_div_mul]
    omega
  have hC4 : consumedBits br4 = consumedBits st.br + 20 := by
    rw [h45, h35, h25, h15]
    push_cast
    ring
  have hD4 : br4.data = st.br.data := by rw [h46, h36, h26, h16]
  have hB4 : br4.bitPos = st.br.bitPos := by rw [h47, h37, h27, h17]
  subst hb1
  subst hm0
  subst hvL
  subst hu1
  have hP8 : (8 * (br4.pos : Int) - br4.bitsAvailable).toNat / 8 +
      (if 0 < (8 * (br4.pos : Int) - br4.bitsAvailable).toNat % 8 then 1 else 0) = P := by
    have hC4' : 8 * (br4.pos : Int) - br4.bitsAvailable = consumedBits st.br + 20 := hC4
    rw [hC4']
    by_cases h8 : 0 < (consumedBits st.br + 20).toNat % 8
    · rw [if_pos h8]
      omega
    · rw [if_neg h8]
      omega
  have hcopy := copyUncompressedGo_spec c.length
    { st with br := { br4 with pos := P, bitsAvailable := 0, val := 0 } }
    (by simp only; rw [hD4]; omega)
  obtain ⟨hcO, hcD, hcP, hcB, hcV, hcA⟩ := hcopy
  simp only at hcO hcD hcP hcB hcV hcA
  refine ⟨copyUncompressedGo c.length
    { st with br := { br4 with pos := P, bitsAvailable := 0, val := 0 } },
    ?_, by rw [hcD, hD4], by rw [hcP], by rw [hcB, hB4], by rw [hcV], by rw [hcA], ?_⟩
  · have hstep : decompressStep bodyFuel st br1 false =
        .ok (copyUncompressedGo c.length
          { st with br := { br4 with pos := P, bitsAvailable := 0, val := 0 } }, false) := by
      conv_lhs => rw [decompressStep]
      rw [hrk2]
      simp only
      rw [if_neg (by norm_num : ¬ (0 : Nat) = 3)]
      rw [show ((4 : Nat) + 0) * 4 = 16 from by norm_num, hrk3]
      simp only
      rw [if_neg (by simp)]
      rw [if_pos (And.intro (by simp) (by rw [hrk4]; norm_num))]
      rw [hrk4]
      simp only [Bool.false_eq_true, not_false_eq_true, if_true]
      rw [hP8]
      rw [show c.length - 1 + 1 = c.length from by omega]
    rw [decompressLoopGo, hrk1]
    simp only
    rw [if_neg (by norm_num : ¬ (0 : Nat) = 1), hstep]
    simp only [Bool.false_eq_true, if_false]
  · rw [hcO, hD4, hshape, List.take_left]



theorem uncompressed_loop (bodyFuel : Nat) :
    ∀ (k fuel : Nat) (y pre : List Nat) (st : DecompSt),
      y.length ≤ 65536 * k → k < fuel → ReaderInv st.br →
      st.br.data = pre ++ encChunksGo y.length y ++ [3] →
      st.br.pos = pre.length →
      st.br.val = 0 → st.br.bitsAvailable = 0 →
      ∃ st2, decompressLoopGo bodyFuel fuel st = .ok st2 ∧
        st2.output = st.output ++ y := by
  intro k
  induction k with
  | zero =>
    intro fuel y pre st hyk hkf hInv hdata hpos hv hba
    have hy0 : y = [] := List.length_eq_zero.mp (by omega)
    subst hy0
    obtain ⟨f, rfl⟩ : ∃ f, fuel = f + 1 := ⟨fuel - 1, by omega⟩
    have hdrop : st.br.data.drop st.br.pos = [3] := by
      rw [hdata, hpos]
      simp [encChunksGo]
    obtain ⟨st2, he, ho⟩ := last_block_step bodyFuel f st hInv hdrop hv hba
    exact ⟨st2, he, by rw [ho, List.append_nil]⟩
  | succ k ih =>
    intro fuel y pre st hyk hkf hInv hdata hpos hv hba
    by_cases hyn : y.length = 0
    · have hy0 : y = [] := List.length_eq_zero.mp hyn
      subst hy0
      obtain ⟨f, rfl⟩ : ∃ f, fuel = f + 1 := ⟨fuel - 1, by omega⟩
      have hdrop : st.br.data.drop st.br.pos = [3] := by
        rw [hdata, hpos]
        simp [encChunksGo]
      obtain ⟨st2, he, ho⟩ := last_block_step bodyFuel f st hInv hdrop hv hba
      exact ⟨st2, he, by rw [ho, List.append_nil]⟩
    · have hyne : y ≠ [] := by
        intro hcon
        rw [hcon] at hyn
        simp at hyn
      obtain ⟨f, rfl⟩ : ∃ f, fuel = f + 1 := ⟨fuel - 1, by omega⟩
      have henc : encChunksGo y.length y =
          encChunk (y.take 65536) ++ encChunksGo (y.drop 65536).length (y.drop 65536) :=
        encChunks_cons y hyne
      set c := y.take 65536 with hc
      set yr := y.drop 65536 with hyr
      set encRest := encChunksGo yr.length yr with hencRest
      have hc1 : 1 ≤ c.length := by
        rw [hc, List.length_take]
        omega
      have hc2 : c.length ≤ 65536 := by
        rw [hc, List.length_take]
        omega
      have hyrlen : yr.length = y.length - 65536 := by
        rw [hyr, List.length_drop]
      have hdata1 : st.br.data = pre ++ (encChunk c ++ (encRest ++ [3])) := by
        rw [hdata, henc]
        simp [List.append_assoc]
      have hdropPos : st.br.data.drop st.br.pos = encChunk c ++ (encRest ++ [3]) := by
        rw [hdata1, hpos]
        exact List.drop_left _ _
      have hdata2 : st.br.data =
          (pre ++ [8 * (c.length - 1) % 256, 8 * (c.length - 1) / 256 % 256,
            8 * (c.length - 1) / 65536 + 8]) ++ (c ++ (encRest ++ [3])) := by
        rw [hdata1, encChunk]
        simp [List.append_assoc]
      have hshape : st.br.data.drop (pre.length + 3) = c ++ (encRest ++ [3]) := by
        have hlp : (pre ++ [8 * (c.length - 1) % 256, 8 * (c.length - 1) / 256 % 256,
            8 * (c.length - 1) / 65536 + 8]).length = pre.length + 3 := by simp
        rw [hdata2, ← hlp]
        exact List.drop_left _ _
      have hlenEq : st.br.data.length =
          pre.length + 3 + (c.length + (encRest.length + 1)) := by
        have h2 := congrArg List.length hdata2
        simp only [List.length_append, List.length_cons, List.length_nil,
          List.length_singleton] at h2
        omega
      have hval : streamVal st.br =
          8 * (c.length - 1) + 524288 +
            1048576 * (16 * bytesVal (c ++ (encRest ++ [3]))) := by
        rw [clean_streamVal st.br hv hba, hdropPos, encChunk, List.append_assoc,
          bytesVal_append]
        rw [show bytesVal [8 * (c.length - 1) % 256, 8 * (c.length - 1) / 256 % 256,
          8 * (c.length - 1) / 65536 + 8] = 8 * (c.length - 1) + 524288 from by
            simp [bytesVal]
            omega]
        norm_num
        ring
      have hcons0 : consumedBits st.br = 8 * (st.br.pos : Int) :=
        clean_consumedBits st.br hba
      obtain ⟨stM, heq, hD, hP, hB, hV, hA, hO⟩ :=
        uncompressed_block_step bodyFuel f st c (encRest ++ [3]) (pre.length + 3)
          (16 * bytesVal (c ++ (encRest ++ [3]))) hInv hc1 hc2 hval
          (by rw [hcons0, hpos]; push_cast; omega)
          (by rw [hcons0, hpos]; push_cast; omega)
          hshape
          (by omega)
      have hInv2 : ReaderInv stM.br := by
        refine clean_ReaderInv stM.br hV hA ?_ ?_
        · rw [hP, hD]
          omega
        · rw [hD]
          exact hInv.2.2.2.2.2
      have hdata3 : stM.br.data =
          (pre ++ encChunk c) ++ encChunksGo yr.length yr ++ [3] := by
        rw [hD, hdata, henc]
        simp [List.append_assoc]
      have hpos3 : stM.br.pos = (pre ++ encChunk c).length := by
        rw [hP]
        simp [encChunk]
        omega
      obtain ⟨st3, he3, ho3⟩ := ih f yr (pre ++ encChunk c) stM
        (by omega) (by omega) hInv2 hdata3 hpos3 hV hA
      refine ⟨st3, ?_, ?_⟩
      · rw [heq, he3]
      · rw [ho3, hO, List.append_assoc, hc, hyr, List.take_append_drop]


/-- C1: decompressing the compressor's output yields the input exactly, for
every byte sequence of length at most 2^20 (including the empty one).  The
fuel `x.length + 2` bounds the number of meta-blocks, which the layout of
`brotliCompress` never reaches. -/
theorem decompress_compress_roundtrip (x : List Nat) (hlen : x.length ≤ 1048576)
    (hb : ∀ b ∈ x, b < 256) :
    brotliDecompress (x.length + 2) (brotliCompress x) = .ok x := by
  by_cases hx : x.length = 0
  · have hx0 : x = [] := List.length_eq_zero.mp hx
    subst hx0
    decide
  · have hne : x ≠ [] := by
      intro hcon
      rw [hcon] at hx
      simp at hx
    rw [brotliCompress, if_neg hx, compressUncompressed_eq x hne hb]
    obtain ⟨c, hc⟩ : ∃ c, x.take 65536 = c := ⟨_, rfl⟩
    obtain ⟨xr, hxr⟩ : ∃ xr, x.drop 65536 = xr := ⟨_, rfl⟩
    have hc1 : 1 ≤ c.length := by
      rw [← hc, List.length_take]
      omega
    have hc2 : c.length ≤ 65536 := by
      rw [← hc, List.length_take]
      omega
    have hxrlen : xr.length = x.length - 65536 := by
      rw [← hxr, List.length_drop]
    have hblt : ∀ b ∈ encodeStream x, b < 256 := encodeStream_lt x hb
    have hdataEq : encodeStream x = [(11 + 128 * (c.length - 1)) % 256,
        (11 + 128 * (c.length - 1)) / 256 % 256,
        (11 + 128 * (c.length - 1)) / 65536 + 128] ++
        (c ++ (encChunksGo xr.length xr ++ [3])) := by
      rw [encodeStream, encFirstChunk, hc, hxr,
        show encChunks xr = encChunksGo xr.length xr from rfl]
      simp [List.append_assoc]
    have hlenEq : (encodeStream x).length =
        3 + (c.length + (encChunksGo xr.length xr).length + 1) := by
      have h2 := congrArg List.length hdataEq
      simp only [List.length_append, List.length_cons, List.length_nil] at h2
      omega
    have hInv0 : ReaderInv (BitReader.init (encodeStream x)) :=
      clean_ReaderInv _ rfl rfl (Nat.zero_le _) hblt
    have hSV0 : streamVal (BitReader.init (encodeStream x)) =
        11 + 128 * (c.length - 1) + 8388608 +
          16777216 * bytesVal (c ++ (encChunksGo xr.length xr ++ [3])) := by
      rw [clean_streamVal _ rfl rfl]
      simp only [BitReader.init, List.drop_zero]
      rw [hdataEq, bytesVal_append]
      rw [show bytesVal [(11 + 128 * (c.length - 1)) % 256,
          (11 + 128 * (c.length - 1)) / 256 % 256,
          (11 + 128 * (c.length - 1)) / 65536 + 128] =
          11 + 128 * (c.length - 1) + 8388608 from by
        simp [bytesVal]
        omega]
      norm_num
    have hSL0 : streamLen (BitReader.init (encodeStream x)) =
        8 * ((encodeStream x).length : Int) := by
      rw [streamLen]
      simp [BitReader.init]
    obtain ⟨g11, g12, g13, g14, g15, g16, g17⟩ :=
      readBits_spec (BitReader.init (encodeStream x)) 1 hInv0 (by omega) (by
        rw [hSL0]
        have h3 : (3 : Int) ≤ ((encodeStream x).length : Int) := by
          have h4 := hlenEq
          omega
        omega)
    rw [pow_one] at g11 g13
    rcases hwk : readBits (BitReader.init (encodeStream x)) 1 with ⟨w, brA⟩
    rw [hwk] at g11 g12 g13 g14 g15 g16 g17
    simp only at g11 g12 g13 g14 g15 g16 g17
    obtain ⟨g21, g22, g23, g24, g25, g26, g27⟩ :=
      readBits_spec brA 3 g12 (by omega) (by
        rw [g14, hSL0]
        have h3 : (3 : Int) ≤ ((encodeStream x).length : Int) := by
          have h4 := hlenEq
          omega
        omega)
    rw [show (2:Nat) ^ 3 = 8 from by norm_num] at g21 g23
    rcases hwvk : readBits brA 3 with ⟨wv, brB⟩
    rw [hwvk] at g21 g22 g23 g24 g25 g26 g27
    simp only at g21 g22 g23 g24 g25 g26 g27
    have hw1 : w = 1 := by
      rw [g11, hSV0]
      omega
    have hwv5 : wv = 5 := by
      rw [g21, g13, hSV0]
      omega
    subst hw1
    subst hwv5
    have hstate : brotliDecompressState (x.length + 2) (encodeStream x) =
        decompressLoopGo (x.length + 2) (x.length + 2)
          ⟨brB, [], fun _ => 0, 0, (1 <<< (17 + 5)) - 16, distRingBufferInit, 0⟩ := by
      rw [brotliDecompressState, hwk]
      simp only
      rw [if_neg (by norm_num : ¬ (1 : Nat) = 0), hwvk]
      simp only
      rw [if_neg (by norm_num : ¬ (5 : Nat) = 0)]
    have hSVB : streamVal brB =
        8 * (c.length - 1) + 524288 +
          1048576 * bytesVal (c ++ (encChunksGo xr.length xr ++ [3])) := by
      rw [g23, g13, hSV0, Nat.div_div_eq_div_mul]
      omega
    have hCB : consumedBits brB = 4 := by
      rw [g25, g15, clean_consumedBits _ rfl]
      simp [BitReader.init]
    have hDB : brB.data = encodeStream x := by
      rw [g26, g16]
      rfl
    obtain ⟨stM, heq, hD, hP, hBp, hV, hA, hO⟩ :=
      uncompressed_block_step (x.length + 2) (x.length + 1)
        ⟨brB, [], fun _ => 0, 0, (1 <<< (17 + 5)) - 16, distRingBufferInit, 0⟩
        c (encChunksGo xr.length xr ++ [3]) 3
        (bytesVal (c ++ (encChunksGo xr.length xr ++ [3])))
        g22 hc1 hc2 hSVB
        (by
          show 8 * ((3 : Nat) : Int) - 8 < consumedBits brB + 20
          rw [hCB]
          norm_num)
        (by
          show consumedBits brB + 20 ≤ 8 * ((3 : Nat) : Int)
          rw [hCB]
          norm_num)
        (by
          show brB.data.drop 3 = c ++ (encChunksGo xr.length xr ++ [3])
          rw [hDB, hdataEq]
          exact List.drop_left' (by simp))
        (by
          show 3 ≤ brB.data.length
          rw [hDB]
          omega)
    simp only at hD hP hBp hV hA hO
    rw [hDB] at hD
    have hInvM : ReaderInv stM.br := by
      refine clean_ReaderInv stM.br hV hA ?_ ?_
      · rw [hP, hD]
        omega
      · rw [hD]
        exact hblt
    have hdataM : stM.br.data =
        encFirstChunk c ++ encChunksGo xr.length xr ++ [3] := by
      rw [hD, encodeStream, hc, hxr,
        show encChunks xr = encChunksGo xr.length xr from rfl]
    have hposM : stM.br.pos = (encFirstChunk c).length := by
      rw [hP]
      simp only [encFirstChunk, List.length_append, List.length_cons, List.length_nil]
    obtain ⟨st3, he3, ho3⟩ := uncompressed_loop (x.length + 2) xr.length (x.length + 1)
      xr (encFirstChunk c) stM (by omega) (by omega) hInvM hdataM hposM hV hA
    have hfinal : brotliDecompressState (x.length + 2) (encodeStream x) = .ok st3 := by
      rw [hstate, show x.length + 2 = x.length + 1 + 1 from by omega, heq, he3]
    rw [brotliDecompress, hfinal]
    simp only
    rw [ho3, hO, List.nil_append, ← hc, ← hxr, List.take_append_drop,
      map_mod_eq_self x hb]


theorem decompress_compress_roundtrip_witness :
    brotliDecompress ([97, 98].length + 2) (brotliCompress [97, 98]) = .ok [97, 98] :=
  decompress_compress_roundtrip [97, 98] (by decide) (by decide)

/-! ## Claim theorems (C3 - C9) -/

/-! ## Context-map range invariant (for C10) -/

theorem getD_lt_of_forall {l : List Nat} {n : Nat} (h : ∀ x ∈ l, x < n) (h0 : 0 < n)
    (i : Nat) : l.getD i 0 < n := by
  rcases Nat.lt_or_ge i l.length with hi | hi
  · rw [List.getD_eq_getElem l 0 hi]
    exact h _ (List.getElem_mem hi)
  · rw [List.getD_eq_default l 0 hi]
    exact h0

theorem mem_set_lt {l : List Nat} {n v : Nat} (h : ∀ x ∈ l, x < n) (hv : v < n)
    (i : Nat) : ∀ x ∈ l.set i v, x < n := by
  intro x hx
  rcases List.mem_or_eq_of_mem_set hx with h' | rfl
  · exact h x h'
  · exact hv

theorem mem_sortInsert {α : Type} (le : α → α → Bool) (e : α) :
    ∀ (l : List α), ∀ x ∈ sortInsert le e l, x = e ∨ x ∈ l := by
  intro l
  induction l with
  | nil =>
    intro x hx
    rw [sortInsert] at hx
    exact Or.inl (List.mem_singleton.mp hx)
  | cons a as ih =>
    intro x hx
    rw [sortInsert] at hx
    split at hx
    · rcases List.mem_cons.mp hx with h | h
      · exact Or.inl h
      · exact Or.inr h
    · rcases List.mem_cons.mp hx with h | h
      · exact Or.inr (h ▸ List.mem_cons_self a as)
      · rcases ih x h with h' | h'
        · exact Or.inl h'
        · exact Or.inr (List.mem_cons_of_mem a h')

theorem mem_stableSort {α : Type} (le : α → α → Bool) :
    ∀ (l : List α), ∀ x ∈ stableSort le l, x ∈ l := by
  intro l
  induction l with
  | nil =>
    intro x hx
    exact absurd hx (List.not_mem_nil x)
  | cons a as ih =>
    intro x hx
    rw [stableSort, List.foldr_cons] at hx
    rcases mem_sortInsert le a _ x hx with h | h
    · exact h ▸ List.mem_cons_self a as
    · exact List.mem_cons_of_mem a (ih x h)

theorem huffStep_fold_symbol_lt (cl : List Nat) (n : Nat) :
    ∀ (l : List Nat), (∀ i ∈ l, i < n) →
    ∀ (st : List Nat × List HuffEntry), (∀ e ∈ st.2, e.symbol < n) →
    ∀ e ∈ (l.foldl (huffStep cl) st).2, e.symbol < n := by
  intro l
  induction l with
  | nil =>
    intro _ st hst e he
    exact hst e he
  | cons a as ih =>
    intro hl st hst e he
    rw [List.foldl_cons] at he
    refine ih (fun i hi => hl i (List.mem_cons_of_mem a hi)) (huffStep cl st a) ?_ e he
    intro f hf
    simp only [huffStep] at hf
    split at hf
    · rcases List.mem_append.mp hf with h | h
      · exact hst f h
      · rw [List.mem_singleton] at h
        subst h
        exact hl a (List.mem_cons_self a as)
    · exact hst f hf

theorem buildHuffmanTable_symbol_lt (cl : List Nat) (n : Nat) :
    ∀ e ∈ buildHuffmanTable cl n, e.symbol < n := by
  intro e he
  simp only [buildHuffmanTable] at he
  split at he
  · exact absurd he (List.not_mem_nil e)
  · have h2 := mem_stableSort _ _ e he
    exact huffStep_fold_symbol_lt cl n (List.range n) (fun i hi => List.mem_range.mp hi) _
      (fun f hf => absurd hf (List.not_mem_nil f)) e h2

theorem readHuffmanSymbol_lt (br : BitReader) (table : List HuffEntry) (n : Nat)
    (hn : 0 < n) (ht : ∀ e ∈ table, e.symbol < n) {code : Nat} {br2 : BitReader}
    (h : readHuffmanSymbol br table = .ok (code, br2)) : code < n := by
  cases table with
  | nil =>
    simp only [readHuffmanSymbol] at h
    injection h with h'
    injection h' with h1 h2
    omega
  | cons e tail =>
    cases tail with
    | nil =>
      simp only [readHuffmanSymbol] at h
      injection h with h'
      injection h' with h1 h2
      exact h1 ▸ ht e (List.mem_cons_self e [])
    | cons e2 tail2 =>
      simp only [readHuffmanSymbol] at h
      rcases hf : List.find?
          (fun f => (fillBits br).val &&& ((1 <<< f.len) - 1) == f.bits)
          (e :: e2 :: tail2) with _ | fe
      · rw [hf] at h
        exact Except.noConfusion h
      · rw [hf] at h
        injection h with h'
        injection h' with h1 h2
        exact h1 ▸ ht fe (List.mem_of_find?_eq_some hf)

theorem readSimplePrefixCode_symbol_lt (br : BitReader) (a : Nat) :
    ∀ e ∈ (readSimplePrefixCode br a).1, e.symbol < a := by
  intro e he
  simp only [readSimplePrefixCode] at he
  repeat' split at he
  all_goals exact buildHuffmanTable_symbol_lt _ a e he

theorem readComplexPrefixCode_symbol_lt (br : BitReader) (a skip : Nat)
    {t : List HuffEntry} {br2 : BitReader}
    (h : readComplexPrefixCode br a skip = .ok (t, br2)) :
    ∀ e ∈ t, e.symbol < a := by
  simp only [readComplexPrefixCode] at h
  rcases hclc : readClcGo (18 - skip) skip br (List.replicate 18 0) 32 with ⟨cll, brC⟩
  rw [hclc] at h
  simp only at h
  rcases hsl : readSymbolLengthsGo a brC (buildHuffmanTable cll 18)
      (List.replicate a 0) 0 8 32768 a with eE | ⟨clF, brF⟩
  · rw [hsl] at h
    exact Except.noConfusion h
  · rw [hsl] at h
    simp only at h
    injection h with h'
    injection h' with h1 h2
    subst h1
    exact buildHuffmanTable_symbol_lt _ a

theorem readPrefixCode_symbol_lt (br : BitReader) (a : Nat)
    {t : List HuffEntry} {br2 : BitReader}
    (h : readPrefixCode br a = .ok (t, br2)) :
    ∀ e ∈ t, e.symbol < a := by
  simp only [readPrefixCode] at h
  rcases hrb : readBits br 2 with ⟨skip, brS⟩
  rw [hrb] at h
  simp only at h
  split at h
  · injection h with h'
    have h1 : (readSimplePrefixCode brS a).1 = t := congrArg Prod.fst h'
    subst h1
    exact readSimplePrefixCode_symbol_lt brS a
  · exact readComplexPrefixCode_symbol_lt brS a skip h

theorem zeroRunGo_lt (n : Nat) (hn : 0 < n) :
    ∀ (j : Nat) (cm : List Nat) (i size : Nat), (∀ x ∈ cm, x < n) →
      ∀ x ∈ (zeroRunGo j cm i size).1, x < n := by
  intro j
  induction j with
  | zero =>
    intro cm i size h x hx
    exact h x hx
  | succ j ih =>
    intro cm i size h x hx
    rw [zeroRunGo] at hx
    split at hx
    · exact ih _ _ _ (mem_set_lt h hn i) x hx
    · exact h x hx

theorem contextMapFillGo_lt (tbl : List HuffEntry) (n mrlp : Nat) (hn : 0 < n)
    (ht : ∀ e ∈ tbl, e.symbol < n + mrlp) :
    ∀ (fuel : Nat) (br : BitReader) (cm : List Nat) (i size : Nat),
      (∀ x ∈ cm, x < n) →
      ∀ (cm2 : List Nat) (br2 : BitReader),
        contextMapFillGo fuel br tbl cm i size mrlp = .ok (cm2, br2) →
        ∀ x ∈ cm2, x < n := by
  intro fuel
  induction fuel with
  | zero =>
    intro br cm i size h cm2 br2 heq x hx
    rw [contextMapFillGo] at heq
    split at heq
    · exact Except.noConfusion heq
    · injection heq with h'
      injection h' with h1 h2
      subst h1
      exact h x hx
  | succ fuel ih =>
    intro br cm i size h cm2 br2 heq x hx
    rw [contextMapFillGo] at heq
    split at heq
    · rcases hrs : readHuffmanSymbol br tbl with eE | ⟨code, brS⟩
      · rw [hrs] at heq
        exact Except.noConfusion heq
      · rw [hrs] at heq
        simp only at heq
        by_cases hc0 : code = 0
        · rw [if_pos hc0] at heq
          exact ih _ _ _ _ (mem_set_lt h hn i) cm2 br2 heq x hx
        · rw [if_neg hc0] at heq
          by_cases hcr : code ≤ mrlp
          · rw [if_pos hcr] at heq
            rcases hrb : readBits brS code with ⟨ev, brE⟩
            rw [hrb] at heq
            simp only at heq
            rcases hzr : zeroRunGo ((1 <<< code) + ev) cm i size with ⟨cmZ, iZ⟩
            rw [hzr] at heq
            simp only at heq
            have hcmZ : ∀ y ∈ cmZ, y < n := by
              have h3 := zeroRunGo_lt n hn ((1 <<< code) + ev) cm i size h
              rw [hzr] at h3
              exact h3
            exact ih _ _ _ _ hcmZ cm2 br2 heq x hx
          · rw [if_neg hcr] at heq
            have hcode : code < n + mrlp :=
              readHuffmanSymbol_lt br tbl (n + mrlp) (by omega) ht hrs
            have hv : (code - mrlp) % 256 < n :=
              lt_of_le_of_lt (Nat.mod_le _ _) (by omega)
            exact ih _ _ _ _ (mem_set_lt h hv i) cm2 br2 heq x hx
    · injection heq with h'
      injection h' with h1 h2
      subst h1
      exact h x hx

theorem imtfShiftGo_lt (n : Nat) (hn : 0 < n) :
    ∀ (j : Nat) (mtf : List Nat), (∀ x ∈ mtf, x < n) →
      ∀ x ∈ imtfShiftGo j mtf, x < n := by
  intro j
  induction j with
  | zero =>
    intro mtf h x hx
    exact h x hx
  | succ j ih =>
    intro mtf h x hx
    rw [imtfShiftGo] at hx
    exact ih _ (mem_set_lt h (getD_lt_of_forall h hn j) (j + 1)) x hx

theorem inverseMtfGo_lt (n : Nat) (hn : 0 < n) :
    ∀ (fuel : Nat) (cm mtf : List Nat) (i : Nat),
      (∀ x ∈ cm, x < n) → (∀ x ∈ mtf, x < n) →
      ∀ x ∈ (inverseMtfGo fuel cm mtf i).1, x < n := by
  intro fuel
  induction fuel with
  | zero =>
    intro cm mtf i hc hm x hx
    exact hc x hx
  | succ fuel ih =>
    intro cm mtf i hc hm x hx
    simp only [inverseMtfGo] at hx
    have hval : mtf.getD (cm.getD i 0) 0 < n := getD_lt_of_forall hm hn _
    exact ih _ _ _ (mem_set_lt hc hval i)
      (mem_set_lt (imtfShiftGo_lt n hn _ _ hm) hval 0) x hx

/-- C3 counterexample: the input of eight 0x61 bytes contains a match of
length 4 at distance 4 (its first four bytes recur immediately), yet
`brotliCompress` produces the uncompressed fallback stream: the first
meta-block has ISLAST = 0 (bit 4 of byte 0, so the input is not covered by
a single last meta-block) and ISUNCOMPRESSED = 1 (bit 7 of byte 2),
contradicting the claimed single compressed meta-block. -/
theorem compress_ignores_matches_counterexample :
    (List.replicate 8 97).take 4 = ((List.replicate 8 97).drop 4).take 4 ∧
    brotliCompress (List.replicate 8 97) = brotliCompressUncompressed (List.replicate 8 97) ∧
    ((brotliCompress (List.replicate 8 97)).getD 0 0).testBit 4 = false ∧
    ((brotliCompress (List.replicate 8 97)).getD 2 0).testBit 7 = true := by
  refine ⟨by decide, ?_, by decide, by decide⟩
  rw [brotliCompress, if_neg (by decide)]

/-- C3 (amended): `brotliCompress` never emits a compressed meta-block:
for every non-empty input, whether or not matches of length at least 4
exist, it returns the uncompressed fallback `brotliCompressUncompressed`
(the LZ77 path `brotliCompressBlock` is never invoked). -/
theorem compress_always_uncompressed (x : List Nat) (hne : x ≠ []) :
    brotliCompress x = brotliCompressUncompressed x := by
  rw [brotliCompress, if_neg (by simpa using hne)]

theorem compress_always_uncompressed_witness :
    ([97] : List Nat) ≠ [] ∧ brotliCompress [97] = brotliCompressUncompressed [97] :=
  ⟨by decide, compress_always_uncompressed [97] (by decide)⟩

/-- C4: when ISLAST reads as 1, the decoder merely peeks the next bit and
consumes it only when it is 1 (source lines 380-384).  Whenever the stream
continues with ISLAST = 1 and ISEMPTY = 0, exactly one bit (ISLAST) has
been consumed when the meta-block parser `decompressStep` (whose first act
is `readBits br 2` for MNIBBLES) takes over: the unread stream handed to it
still begins with the ISEMPTY bit, so MNIBBLES is read one bit early, not
at the position after a consumed ISEMPTY bit. -/
theorem islast_isempty_bit_not_consumed (st : DecompSt) (bodyFuel fuel : Nat)
    (h : ReaderInv st.br)
    (h1 : streamVal st.br % 2 = 1)
    (h2 : streamVal st.br / 2 % 2 = 0)
    (hlen : 3 ≤ streamLen st.br) :
    ∃ br2 : BitReader,
      (decompressLoopGo bodyFuel (fuel + 1) st =
        match decompressStep bodyFuel st br2 true with
        | .error e => .error e
        | .ok (st2, isl) => if isl then .ok st2 else decompressLoopGo bodyFuel fuel st2) ∧
      streamVal br2 = streamVal st.br / 2 ∧
      consumedBits br2 = consumedBits st.br + 1 ∧
      (readBits br2 2).1 = streamVal st.br / 2 % 4 := by
  obtain ⟨hr1, hrInv, hrVal, hrLen, hrCons, hrD, hrB⟩ :=
    readBits_spec st.br 1 h (by omega) (by omega)
  rw [pow_one] at hr1 hrVal
  obtain ⟨hp1, hp2⟩ := peekBits_spec (readBits st.br 1).2 1 hrInv (by omega) (by omega)
  rw [pow_one] at hp1
  obtain ⟨hfInv, hfVal, hfLen, hfCons, hfD, hfB, hfF⟩ := fillBits_spec (readBits st.br 1).2 hrInv
  rcases hrk : readBits st.br 1 with ⟨bv, br⟩
  rw [hrk] at hr1 hrVal hrLen hrCons hrInv hp1 hp2 hfInv hfVal hfLen hfCons
  simp only at hr1 hrVal hrLen hrCons hrInv hp1 hp2 hfInv hfVal hfLen hfCons
  rcases hpk : peekBits br 1 with ⟨pv, pbr⟩
  rw [hpk] at hp1 hp2
  simp only at hp1 hp2
  have hbv : bv = 1 := by rw [hr1]; exact h1
  have hpv : pv = 0 := by rw [hp1, hrVal]; exact h2
  have hpbrVal : streamVal pbr = streamVal st.br / 2 := by rw [hp2, hfVal, hrVal]
  have hpbrLen : streamLen pbr = streamLen st.br - 1 := by
    rw [hp2, hfLen, hrLen]
    norm_num
  have hpbrCons : consumedBits pbr = consumedBits st.br + 1 := by
    rw [hp2, hfCons, hrCons]
    norm_num
  have hpbrInv : ReaderInv pbr := by rw [hp2]; exact hfInv
  refine ⟨pbr, ?_, hpbrVal, hpbrCons, ?_⟩
  · rw [decompressLoopGo, hrk]
    simp only [hbv, eq_self_iff_true, if_true, hpk]
    rw [if_neg (by omega : ¬ pv = 1)]
  · obtain ⟨hq1, _, _, _, _, _, _⟩ := readBits_spec pbr 2 hpbrInv (by omega) (by omega)
    rw [hq1, hpbrVal]
    norm_num

theorem islast_isempty_bit_not_consumed_witness :
    ∃ br2 : BitReader,
      (decompressLoopGo 5 (4 + 1)
          ⟨BitReader.init [1], [], fun _ => 0, 0, 65520, distRingBufferInit, 0⟩ =
        match decompressStep 5
            ⟨BitReader.init [1], [], fun _ => 0, 0, 65520, distRingBufferInit, 0⟩ br2 true with
        | .error e => .error e
        | .ok (st2, isl) => if isl then .ok st2 else decompressLoopGo 5 4 st2) ∧
      streamVal br2 =
        streamVal (⟨BitReader.init [1], [], fun _ => 0, 0, 65520, distRingBufferInit, 0⟩ :
          DecompSt).br / 2 ∧
      consumedBits br2 =
        consumedBits (⟨BitReader.init [1], [], fun _ => 0, 0, 65520, distRingBufferInit, 0⟩ :
          DecompSt).br + 1 ∧
      (readBits br2 2).1 =
        streamVal (⟨BitReader.init [1], [], fun _ => 0, 0, 65520, distRingBufferInit, 0⟩ :
          DecompSt).br / 2 % 4 :=
  islast_isempty_bit_not_consumed
    ⟨BitReader.init [1], [], fun _ => 0, 0, 65520, distRingBufferInit, 0⟩ 5 4
    ⟨by decide, by decide, by decide, by decide, by decide, by decide⟩
    (by decide) (by decide) (by decide)

/-- C5 counterexample: on an exhausted reader (no unread bits at all),
`readBits 1` does not fail: it returns the value 0 and simply drives
`bitsAvailable` negative. -/
theorem readBits_no_eof_counterexample :
    streamLen (BitReader.init []) < 1 ∧
    readBits (BitReader.init []) 1 = (0, ⟨[], 0, 0, 0, -1⟩) := by
  constructor
  · decide
  · decide

/-- C5 (amended): `readBits` cannot fail.  Whenever fewer than `n` unread
bits remain (`streamLen br < n`, for 0 < n ≤ 24), it silently returns the
entire zero-extended remainder of the stream and leaves a negative
`bitsAvailable`. -/
theorem readBits_exhausted_returns_silently (br : BitReader) (n : Nat)
    (h : ReaderInv br) (h0 : 0 < n) (h24 : n ≤ 24) (hlen : streamLen br < n) :
    (readBits br n).1 = streamVal br ∧ (readBits br n).2.bitsAvailable < 0 := by
  obtain ⟨hFinv, hFval, hFlen, _, _, _, hFfull⟩ := fillBits_spec br h
  set F := fillBits br with hF
  obtain ⟨hge, hle31, hvlt, hpos, hcons, hbytes⟩ := hFinv
  have hend : F.pos = F.data.length := by
    rcases hFfull with h24' | hend
    · exfalso
      have : (24 : Int) ≤ streamLen F := by
        simp only [streamLen]
        have : (F.pos : Int) ≤ (F.data.length : Int) := by exact_mod_cast hpos
        omega
      omega
    · exact hend
  have hlenF : streamLen F = F.bitsAvailable := by
    simp only [streamLen, hend]
    ring
  have hBn : F.bitsAvailable.toNat ≤ n := by omega
  have hvn : F.val < 2 ^ n := lt_of_lt_of_le hvlt (Nat.pow_le_pow_right (by omega) hBn)
  have hreq : readBits br n =
      (F.val &&& ((1 <<< n) - 1),
       { F with val := F.val >>> n, bitsAvailable := F.bitsAvailable - n }) := by
    rw [readBits, if_neg (by omega)]
  rw [hreq]
  constructor
  · show F.val &&& ((1 <<< n) - 1) = streamVal br
    rw [Nat.one_shiftLeft, Nat.and_pow_two_sub_one_eq_mod, Nat.mod_eq_of_lt hvn, ← hFval]
    simp only [streamVal, hend, List.drop_length, bytesVal]
    ring
  · show F.bitsAvailable - (n : Int) < 0
    omega

theorem readBits_exhausted_witness :
    ReaderInv (BitReader.init [97]) ∧ 0 < 9 ∧ 9 ≤ 24 ∧ streamLen (BitReader.init [97]) < 9 ∧
    (readBits (BitReader.init [97]) 9).1 = streamVal (BitReader.init [97]) ∧
    (readBits (BitReader.init [97]) 9).2.bitsAvailable < 0 := by
  refine ⟨?_, by decide, by decide, by decide, ?_⟩
  · refine ⟨by decide, by decide, by decide, by decide, by decide, ?_⟩
    decide
  · exact readBits_exhausted_returns_silently (BitReader.init [97]) 9
      ⟨by decide, by decide, by decide, by decide, by decide, by decide⟩
      (by decide) (by decide) (by decide)

/-- C6 counterexample: a short-code resolution that is not positive is
silently replaced by the newest ring distance instead of raising an error:
with ring [1,1,1,1] (reachable by pushing distance 1 four times through
short codes 8 and 3) short code 4 resolves to 1 - 1 = 0 ≤ 0, and
`resolveShortCode` (a total function, source lines 601-608: nothing in the
decoder can raise a distance error) returns the newest distance 1. -/
theorem invalid_distance_not_an_error_counterexample :
    rawShortDistance [some 1, some 1, some 1, some 1] 4 4 = some 0 ∧
    optLeZero (some 0) = true ∧
    resolveShortCode [some 1, some 1, some 1, some 1] 4 4 = some 1 := by
  refine ⟨by decide, by decide, by decide⟩

/-- C6 (amended): decoding has no InvalidDistance failure at all.  Whenever
a short-code resolution is not positive, the decoder silently substitutes
the newest ring-buffer distance; oversized distances are served from the
zero-initialised ring buffer without any check. -/
theorem short_code_nonpositive_replaced (ring : List (Option Int)) (idx : Nat)
    (code : Int) (h : optLeZero (rawShortDistance ring idx code) = true) :
    resolveShortCode ring idx code = resolveDistanceCodeZero ring idx := by
  rw [resolveShortCode, if_pos h]

theorem short_code_nonpositive_replaced_witness :
    optLeZero (rawShortDistance [some 1, some 1, some 1, some 1] 4 4) = true ∧
    resolveShortCode [some 1, some 1, some 1, some 1] 4 4 =
      resolveDistanceCodeZero [some 1, some 1, some 1, some 1] 4 :=
  ⟨by decide, short_code_nonpositive_replaced [some 1, some 1, some 1, some 1] 4 4 (by decide)⟩

set_option maxRecDepth 2000 in
/-- C7: the ring-buffer position is advanced with
`(ringBufferPos + 1) & (windowSize - 1)` although `windowSize = 2^22 - 16`
is not a power of two, so after the 16th output byte the position wraps to
0 instead of 16 = 16 mod (2^22 - 16): decompressing the encoder's own
stream for sixteen 0x07 bytes ends with `ringBufferPos = 0` while 16 bytes
were output into a window of size 4194288. -/
theorem ring_position_wraps_mod_16 :
    (brotliDecompressState 10 (brotliCompress (List.replicate 16 7))).toOption.map
      (fun st => (st.ringBufferPos, st.output.length, st.windowSize)) =
      some (0, 16, 4194288) ∧
    (16 : Nat) % 4194288 = 16 := by
  constructor
  · decide
  · decide

/-- C8 counterexample: the distance ring buffer is stored oldest-first, so
at stream start the newest entry (`distRingBuffer[(idx - 1) & 3]`, source
line 600, which is what a distance code 0 resolves to) is 16, not 4, and
reading the ring newest-first yields 16, 15, 11, 4, not 4, 11, 15, 16. -/
theorem first_code_zero_distance_counterexample :
    resolveDistanceCodeZero distRingBufferInit 0 ≠ some 4 ∧
    [distRingBufferInit.getD (jsAnd ((0 : Int) - 1) 3) none,
     distRingBufferInit.getD (jsAnd ((0 : Int) - 2) 3) none,
     distRingBufferInit.getD (jsAnd ((0 : Int) - 3) 3) none,
     distRingBufferInit.getD (jsAnd ((0 : Int) - 4) 3) none] ≠
      [some 4, some 11, some 15, some 16] := by
  refine ⟨by decide, by decide⟩

/-- C8 (amended): the distance ring buffer is initialised to [4, 11, 15, 16]
stored oldest-first: read newest-first it is 16, 15, 11, 4, and the first
copy command with distance code 0 resolves to distance 16. -/
theorem initial_distance_ring_newest_first :
    [distRingBufferInit.getD (jsAnd ((0 : Int) - 1) 3) none,
     distRingBufferInit.getD (jsAnd ((0 : Int) - 2) 3) none,
     distRingBufferInit.getD (jsAnd ((0 : Int) - 3) 3) none,
     distRingBufferInit.getD (jsAnd ((0 : Int) - 4) 3) none] =
      [some 16, some 15, some 11, some 4] ∧
    resolveDistanceCodeZero distRingBufferInit 0 = some 16 := by
  refine ⟨by decide, by decide⟩

/-- C9: the compressed size is exact: one byte for the empty input, and
otherwise the input size plus 3 header bytes per 65536-byte chunk plus one
final byte. -/
theorem compress_length_exact (x : List Nat) (hb : ∀ b ∈ x, b < 256) :
    (brotliCompress x).length =
      if x.length = 0 then 1
      else x.length + 3 * ((x.length + 65535) / 65536) + 1 := by
  by_cases h0 : x.length = 0
  · have hx : x = [] := List.length_eq_zero.mp h0
    subst hx
    decide
  · rw [if_neg h0, brotliCompress, if_neg h0]
    have hne : x ≠ [] := by
      intro h
      exact h0 (by simp [h])
    rw [compressUncompressed_eq x hne hb]
    exact encodeStream_length x hne

theorem compress_length_exact_witness :
    (∀ b ∈ ([97] : List Nat), b < 256) ∧
    (brotliCompress [97]).length =
      if ([97] : List Nat).length = 0 then 1
      else ([97] : List Nat).length + 3 * ((([97] : List Nat).length + 65535) / 65536) + 1 :=
  ⟨by decide, compress_length_exact [97] (by decide)⟩


/-- C10: every entry of a successfully decoded context map is strictly below
`numTrees`, whether or not the inverse move-to-front transform is applied.
(The decoder only calls `readContextMap` with tree counts of the form
`value + 1`, so `1 ≤ numTrees` covers every call site.) -/
theorem context_map_entries_lt_num_trees (br : BitReader) (size numTrees : Nat)
    (cm : List Nat) (br2 : BitReader) (hn : 1 ≤ numTrees)
    (h : readContextMap br size numTrees = .ok (cm, br2)) :
    ∀ x ∈ cm, x < numTrees := by
  simp only [readContextMap] at h
  split at h
  · injection h with h'
    injection h' with h1 h2
    subst h1
    intro x hx
    have h3 := List.eq_of_mem_replicate hx
    omega
  · rcases hu : readBits br 1 with ⟨useRle, brU⟩
    rw [hu] at h
    simp only at h
    by_cases hur : useRle ≠ 0
    · rw [if_pos hur] at h
      rcases hv : readBits brU 4 with ⟨v, brV⟩
      rw [hv] at h
      simp only at h
      rcases hpc : readPrefixCode brV (numTrees + (v + 1)) with eE | ⟨table, br3⟩
      · rw [hpc] at h
        exact Except.noConfusion h
      · rw [hpc] at h
        simp only at h
        rcases hfill : contextMapFillGo size br3 table (List.replicate size 0) 0 size
            (v + 1) with eE | ⟨cmF, br4⟩
        · rw [hfill] at h
          exact Except.noConfusion h
        · rw [hfill] at h
          simp only at h
          have hcmF : ∀ y ∈ cmF, y < numTrees :=
            contextMapFillGo_lt table numTrees (v + 1) (by omega)
              (readPrefixCode_symbol_lt brV (numTrees + (v + 1)) hpc) size br3
              (List.replicate size 0) 0 size
              (fun y hy => by
                have h3 := List.eq_of_mem_replicate hy
                omega)
              cmF br4 hfill
          rcases hib : readBits br4 1 with ⟨imtf, br5⟩
          rw [hib] at h
          simp only at h
          by_cases him : imtf ≠ 0
          · rw [if_pos him] at h
            rcases hmtf : inverseMtfGo size cmF ((List.range numTrees).map (· % 256)) 0
                with ⟨cmI, mtfI⟩
            rw [hmtf] at h
            simp only at h
            injection h with h'
            injection h' with h1 h2
            subst h1
            have h4 := inverseMtfGo_lt numTrees (by omega) size cmF
              ((List.range numTrees).map (· % 256)) 0 hcmF
              (fun y hy => by
                simp only [List.mem_map, List.mem_range] at hy
                obtain ⟨j, hj, rfl⟩ := hy
                exact lt_of_le_of_lt (Nat.mod_le _ _) hj)
            rw [hmtf] at h4
            exact h4
          · rw [if_neg him] at h
            injection h with h'
            injection h' with h1 h2
            subst h1
            exact hcmF
    · rw [if_neg hur] at h
      simp only at h
      rcases hpc : readPrefixCode brU (numTrees + 0) with eE | ⟨table, br3⟩
      · rw [hpc] at h
        exact Except.noConfusion h
      · rw [hpc] at h
        simp only at h
        rcases hfill : contextMapFillGo size br3 table (List.replicate size 0) 0 size 0
            with eE | ⟨cmF, br4⟩
        · rw [hfill] at h
          exact Except.noConfusion h
        · rw [hfill] at h
          simp only at h
          have hcmF : ∀ y ∈ cmF, y < numTrees :=
            contextMapFillGo_lt table numTrees 0 (by omega)
              (readPrefixCode_symbol_lt brU (numTrees + 0) hpc) size br3
              (List.replicate size 0) 0 size
              (fun y hy => by
                have h3 := List.eq_of_mem_replicate hy
                omega)
              cmF br4 hfill
          rcases hib : readBits br4 1 with ⟨imtf, br5⟩
          rw [hib] at h
          simp only at h
          by_cases him : imtf ≠ 0
          · rw [if_pos him] at h
            rcases hmtf : inverseMtfGo size cmF ((List.range numTrees).map (· % 256)) 0
                with ⟨cmI, mtfI⟩
            rw [hmtf] at h
            simp only at h
            injection h with h'
            injection h' with h1 h2
            subst h1
            have h4 := inverseMtfGo_lt numTrees (by omega) size cmF
              ((List.range numTrees).map (· % 256)) 0 hcmF
              (fun y hy => by
                simp only [List.mem_map, List.mem_range] at hy
                obtain ⟨j, hj, rfl⟩ := hy
                exact lt_of_le_of_lt (Nat.mod_le _ _) hj)
            rw [hmtf] at h4
            exact h4
          · rw [if_neg him] at h
            injection h with h'
            injection h' with h1 h2
            subst h1
            exact hcmF

theorem context_map_entries_lt_num_trees_witness : (0 : Nat) < 1 :=
  context_map_entries_lt_num_trees (BitReader.init []) 2 1 (List.replicate 2 0)
    (BitReader.init []) (by decide) rfl 0 (by decide)


/-! ## Bit-stream algebra for the fallback layout -/

theorem bitsLE_length (n : Nat) : ∀ v : Nat, (bitsLE v n).length = n := by
  induction n with
  | zero => intro v; rfl
  | succ n ih =>
    intro v
    rw [bitsLE, List.length_cons, ih]

theorem bitsLE_zero (n : Nat) : bitsLE 0 n = List.replicate n 0 := by
  induction n with
  | zero => rfl
  | succ n ih =>
    rw [bitsLE, ih, List.replicate_succ]

theorem bitsLE_append (n : Nat) : ∀ (a b m : Nat), a < 2 ^ n →
    bitsLE (a + 2 ^ n * b) (n + m) = bitsLE a n ++ bitsLE b m := by
  induction n with
  | zero =>
    intro a b m ha
    have ha0 : a = 0 := by omega
    subst ha0
    simp [bitsLE]
  | succ n ih =>
    intro a b m ha
    have hp : (2 : Nat) ^ (n + 1) = 2 * 2 ^ n := by rw [pow_succ]; ring
    have hm : (a + 2 ^ (n + 1) * b) % 2 = a % 2 := by
      rw [hp, mul_assoc]
      exact Nat.add_mul_mod_self_left a 2 (2 ^ n * b)
    have hd : (a + 2 ^ (n + 1) * b) / 2 = a / 2 + 2 ^ n * b := by
      rw [hp, mul_assoc]
      exact Nat.add_mul_div_left a (2 ^ n * b) (by omega)
    have hsucc : n + 1 + m = (n + m) + 1 := by omega
    rw [hsucc, bitsLE, hm, hd, bitsLE, List.cons_append]
    rw [ih (a / 2) b m (by omega)]

theorem bitsLE_pad (n k a : Nat) (ha : a < 2 ^ n) :
    bitsLE a (n + k) = bitsLE a n ++ List.replicate k 0 := by
  have h := bitsLE_append n a 0 k ha
  rw [Nat.mul_zero, Nat.add_zero, bitsLE_zero] at h
  exact h

theorem bitsLE_split (n m v : Nat) :
    bitsLE v (n + m) = bitsLE (v % 2 ^ n) n ++ bitsLE (v / 2 ^ n) m := by
  have h := bitsLE_append n (v % 2 ^ n) (v / 2 ^ n) m
    (Nat.mod_lt _ (Nat.pos_pow_of_pos n (by omega)))
  rw [Nat.mod_add_div] at h
  exact h

theorem bytesBits_append (c1 : List Nat) : ∀ c2 : List Nat,
    bytesBits (c1 ++ c2) = bytesBits c1 ++ bytesBits c2 := by
  induction c1 with
  | nil => intro c2; rfl
  | cons b bs ih =>
    intro c2
    rw [List.cons_append, bytesBits, bytesBits, ih, List.append_assoc]

theorem bytesBits_length (c : List Nat) : (bytesBits c).length = 8 * c.length := by
  induction c with
  | nil => rfl
  | cons b bs ih =>
    rw [bytesBits, List.length_append, bitsLE_length, ih, List.length_cons]
    ring

theorem specChunkHeader_length (len : Nat) : (specChunkHeader len).length = 20 := by
  rw [specChunkHeader]
  simp [bitsLE_length]

theorem padToByte_aligned (b : List Nat) (h : b.length % 8 = 0) : padToByte b = b := by
  rw [padToByte, h]
  simp

theorem padToByte_mod4 (b : List Nat) (h : b.length % 8 = 4) :
    padToByte b = b ++ List.replicate 4 0 := by
  rw [padToByte, h]

theorem padToByte_mod2 (b : List Nat) (h : b.length % 8 = 2) :
    padToByte b = b ++ List.replicate 6 0 := by
  rw [padToByte, h]

theorem specChunkHeader_bits20 (len : Nat) (h : len - 1 < 65536) :
    specChunkHeader len = bitsLE (8 * (len - 1) + 524288) 20 := by
  have s1 := bitsLE_split 3 17 (8 * (len - 1) + 524288)
  have h1 : (8 * (len - 1) + 524288) % 2 ^ 3 = 0 := by
    rw [show (2 : Nat) ^ 3 = 8 from by norm_num]
    omega
  have h2 : (8 * (len - 1) + 524288) / 2 ^ 3 = (len - 1) + 65536 := by
    rw [show (2 : Nat) ^ 3 = 8 from by norm_num]
    omega
  rw [h1, h2] at s1
  have s2 := bitsLE_split 16 1 ((len - 1) + 65536)
  have h3 : ((len - 1) + 65536) % 2 ^ 16 = len - 1 := by
    rw [show (2 : Nat) ^ 16 = 65536 from by norm_num]
    omega
  have h4 : ((len - 1) + 65536) / 2 ^ 16 = 1 := by
    rw [show (2 : Nat) ^ 16 = 65536 from by norm_num]
    omega
  rw [h3, h4] at s2
  rw [show (20 : Nat) = 3 + 17 from rfl, s1, show (17 : Nat) = 16 + 1 from rfl, s2]
  rw [specChunkHeader]
  simp [bitsLE]

theorem specChunkHeader_bits24 (len : Nat) (h : len - 1 < 65536) :
    specChunkHeader len ++ List.replicate 4 0 = bitsLE (8 * (len - 1) + 524288) 24 := by
  rw [specChunkHeader_bits20 len h]
  have hb : 8 * (len - 1) + 524288 < 2 ^ 20 := by
    rw [show (2 : Nat) ^ 20 = 1048576 from by norm_num]
    omega
  have h2 := bitsLE_pad 20 4 (8 * (len - 1) + 524288) hb
  rw [show (24 : Nat) = 20 + 4 from rfl, h2]

theorem specFirstHeader_bits (len : Nat) (h : len - 1 < 65536) :
    (1 :: bitsLE 5 3) ++ specChunkHeader len =
      bitsLE (11 + 128 * (len - 1) + 8388608) 24 := by
  rw [specChunkHeader_bits20 len h]
  have e1 : (1 :: bitsLE 5 3) = bitsLE 11 4 := by rfl
  rw [e1]
  have h2 := bitsLE_append 4 11 (8 * (len - 1) + 524288) 20
    (by rw [show (2 : Nat) ^ 4 = 16 from by norm_num]; omega)
  rw [show (11 : Nat) + 2 ^ 4 * (8 * (len - 1) + 524288) =
      11 + 128 * (len - 1) + 8388608 from by
    rw [show (2 : Nat) ^ 4 = 16 from by norm_num]; ring] at h2
  rw [show (24 : Nat) = 4 + 20 from rfl, h2]

theorem bytesBits_three (v : Nat) :
    bytesBits [v % 256, v / 256 % 256, v / 65536] = bitsLE v 24 := by
  have s1 := bitsLE_split 8 16 v
  have s2 := bitsLE_split 8 8 (v / 256)
  rw [show (2 : Nat) ^ 8 = 256 from by norm_num] at s1 s2
  rw [show v / 256 / 256 = v / 65536 from by omega] at s2
  rw [show (24 : Nat) = 8 + 16 from rfl, s1, show (16 : Nat) = 8 + 8 from rfl, s2]
  rw [bytesBits, bytesBits, bytesBits, bytesBits]
  simp

theorem bytesBits_encChunk (c : List Nat) (h1 : 1 ≤ c.length) (h2 : c.length ≤ 65536) :
    bytesBits (encChunk c) =
      bitsLE (8 * (c.length - 1) + 524288) 24 ++ bytesBits c := by
  rw [encChunk, bytesBits_append]
  have he : [8 * (c.length - 1) % 256, 8 * (c.length - 1) / 256 % 256,
      8 * (c.length - 1) / 65536 + 8] =
      [(8 * (c.length - 1) + 524288) % 256, (8 * (c.length - 1) + 524288) / 256 % 256,
       (8 * (c.length - 1) + 524288) / 65536] := by
    have : c.length - 1 < 65536 := by omega
    simp only [List.cons.injEq, eq_self_iff_true, and_true]
    refine ⟨by omega, by omega, by omega⟩
  rw [he, bytesBits_three]

theorem bytesBits_encFirstChunk (c : List Nat) (h1 : 1 ≤ c.length)
    (h2 : c.length ≤ 65536) :
    bytesBits (encFirstChunk c) =
      bitsLE (11 + 128 * (c.length - 1) + 8388608) 24 ++ bytesBits c := by
  rw [encFirstChunk, bytesBits_append]
  have he : [(11 + 128 * (c.length - 1)) % 256, (11 + 128 * (c.length - 1)) / 256 % 256,
      (11 + 128 * (c.length - 1)) / 65536 + 128] =
      [(11 + 128 * (c.length - 1) + 8388608) % 256,
       (11 + 128 * (c.length - 1) + 8388608) / 256 % 256,
       (11 + 128 * (c.length - 1) + 8388608) / 65536] := by
    have : c.length - 1 < 65536 := by omega
    simp only [List.cons.injEq, eq_self_iff_true, and_true]
    refine ⟨by omega, by omega, by omega⟩
  rw [he, bytesBits_three]

theorem specFold_encChunksGo (fuel : Nat) : ∀ (y acc : List Nat),
    y.length ≤ fuel → acc.length % 8 = 0 →
    (specChunksGo fuel y).foldl
      (fun a c => padToByte (a ++ specChunkHeader c.length) ++ bytesBits c) acc =
    acc ++ bytesBits (encChunksGo fuel y) := by
  induction fuel with
  | zero =>
    intro y acc _ _
    simp [specChunksGo, encChunksGo, bytesBits]
  | succ fuel ih =>
    intro y acc hy hacc
    by_cases hlen : y.length = 0
    · simp [specChunksGo, encChunksGo, hlen, bytesBits]
    · rw [specChunksGo, if_neg hlen, List.foldl_cons]
      have htl : 1 ≤ (y.take 65536).length := by
        rw [List.length_take]
        omega
      have htu : (y.take 65536).length ≤ 65536 := by
        rw [List.length_take]
        omega
      have hstep : padToByte (acc ++ specChunkHeader (y.take 65536).length) ++
          bytesBits (y.take 65536) = acc ++ bytesBits (encChunk (y.take 65536)) := by
        have hmod : (acc ++ specChunkHeader (y.take 65536).length).length % 8 = 4 := by
          rw [List.length_append, specChunkHeader_length]
          omega
        rw [padToByte_mod4 _ hmod, bytesBits_encChunk _ htl htu,
          List.append_assoc acc, specChunkHeader_bits24 _ (by omega)]
        simp [List.append_assoc]
      rw [hstep]
      have hd : (y.drop 65536).length = y.length - 65536 := by simp
      rw [ih (y.drop 65536) _ (by omega)
        (by rw [List.length_append, bytesBits_length]; omega)]
      rw [encChunksGo, if_neg hlen, bytesBits_append]
      simp [List.append_assoc]


/-- C2: the fallback encoder's byte output, read as a bit stream, is exactly
the spec's layout: WBITS = 22 header, per chunk ISLAST = 0, MNIBBLES = 0,
16 bits of `chunk_size - 1`, ISUNCOMPRESSED = 1, zero-padding to a byte
boundary and the raw bytes, then a final meta-block with ISLAST = 1,
ISEMPTY = 1, zero-padded to a byte boundary. -/
theorem fallback_stream_structure (x : List Nat) (hne : x ≠ [])
    (hb : ∀ b ∈ x, b < 256) :
    bytesBits (brotliCompressUncompressed x) = specFallbackBits x := by
  have hlen : 1 ≤ x.length := List.length_pos.mpr hne
  rw [compressUncompressed_eq x hne hb, encodeStream, specFallbackBits]
  obtain ⟨n, hn⟩ : ∃ n, x.length = n + 1 := ⟨x.length - 1, by omega⟩
  have hchunks : specChunks x = x.take 65536 :: specChunksGo n (x.drop 65536) := by
    rw [specChunks, hn, specChunksGo, if_neg (by omega)]
  rw [hchunks, List.foldl_cons]
  have htl : 1 ≤ (x.take 65536).length := by
    rw [List.length_take]
    omega
  have htu : (x.take 65536).length ≤ 65536 := by
    rw [List.length_take]
    omega
  have hfirst : padToByte ((1 :: bitsLE 5 3) ++ specChunkHeader (x.take 65536).length) ++
      bytesBits (x.take 65536) =
      bitsLE (11 + 128 * ((x.take 65536).length - 1) + 8388608) 24 ++
        bytesBits (x.take 65536) := by
    rw [specFirstHeader_bits _ (by omega), padToByte_aligned _ (by simp [bitsLE_length])]
  rw [hfirst]
  have hdl : (x.drop 65536).length = x.length - 65536 := by simp
  rw [specFold_encChunksGo n (x.drop 65536) _ (by omega)
    (by simp [List.length_append, bitsLE_length, bytesBits_length])]
  have hec : encChunksGo n (x.drop 65536) = encChunks (x.drop 65536) := by
    rw [encChunks]
    exact encChunksGo_fuel n _ _ (by omega) (le_refl _)
  rw [hec]
  rw [padToByte_mod2 _
    (by simp [List.length_append, bitsLE_length, bytesBits_length]; omega)]
  rw [bytesBits_append, bytesBits_append, bytesBits_encFirstChunk _ htl htu]
  rw [show bytesBits [3] = [1, 1] ++ List.replicate 6 0 from rfl]
  simp [List.append_assoc]

theorem fallback_stream_structure_witness :
    bytesBits (brotliCompressUncompressed [7]) = specFallbackBits [7] :=
  fallback_stream_structure [7] (by decide) (by decide)

end BrotliJs
